import Mathlib

/-!
Verification of the menu-scraper pipeline (`scripts/fetch-menus.ts`).

The script manipulates calendar dates through the JavaScript `Date` object,
always via its UTC accessors, so a date is modelled as a normalized proleptic
Gregorian civil date (year, month, day).  `Date.UTC` and the day-of-week and
day-number arithmetic follow the ECMAScript specification (`MakeDay`,
`DayFromYear`, `WeekDay`), with `Math.floor` divisions rendered as `Int./`
(Euclidean division, which is floor division for positive divisors).
-/

/-- Leap-year test: ECMAScript `DaysInYear(y) = 366` condition, i.e.
`y % 4 == 0 && (y % 100 != 0 || y % 400 == 0)`.  JavaScript `%` is truncated
remainder while `Int.%` is Euclidean, but the two agree on `== 0` tests. -/
def isLeap (y : Int) : Bool :=
  (y % 4 == 0 && y % 100 != 0) || y % 400 == 0

/-- Number of days in year `y`. -/
def yearLen (y : Int) : Int :=
  if isLeap y then 366 else 365

/-- Days in the year strictly before the first of month `m` (1-based). -/
def monthOffset (leap : Bool) (m : Int) : Int :=
  let l : Int := if leap then 1 else 0
  if m ≤ 1 then 0
  else if m = 2 then 31
  else if m = 3 then 59 + l
  else if m = 4 then 90 + l
  else if m = 5 then 120 + l
  else if m = 6 then 151 + l
  else if m = 7 then 181 + l
  else if m = 8 then 212 + l
  else if m = 9 then 243 + l
  else if m = 10 then 273 + l
  else if m = 11 then 304 + l
  else 334 + l

/-- Number of days in month `m` (1-based) of a year with leap flag `leap`. -/
def monthLen (leap : Bool) (m : Int) : Int :=
  if m = 2 then (if leap then 29 else 28)
  else if m = 4 ∨ m = 6 ∨ m = 9 ∨ m = 11 then 30
  else 31

/-- A civil (proleptic Gregorian) calendar date, the model of a JS `Date`
restricted to midnight UTC, which is the only form the script constructs. -/
structure CivilDate where
  year : Int
  month : Int
  day : Int
deriving DecidableEq, Repr

/-- A date is valid when its month and day lie in calendar range; every date
the model constructs is normalized to this form. -/
def CivilDate.IsValid (d : CivilDate) : Prop :=
  1 ≤ d.month ∧ d.month ≤ 12 ∧ 1 ≤ d.day ∧ d.day ≤ monthLen (isLeap d.year) d.month

instance (d : CivilDate) : Decidable d.IsValid := by
  unfold CivilDate.IsValid; infer_instance

/-- Zero-based day-of-year index of a date. -/
def doy0 (d : CivilDate) : Int :=
  monthOffset (isLeap d.year) d.month + (d.day - 1)

/-- ECMAScript `DayFromYear`: day number (days since 1970-01-01) of Jan 1 of
year `y`: `365*(y-1970) + floor((y-1969)/4) - floor((y-1901)/100) +
floor((y-1601)/400)`. -/
def dayFromYear (y : Int) : Int :=
  365 * (y - 1970) + (y - 1969) / 4 - (y - 1901) / 100 + (y - 1601) / 400

/-- Day number of a date: its `getTime()` divided by 86400000. -/
def dayNumber (d : CivilDate) : Int :=
  dayFromYear d.year + doy0 d

/-- ECMAScript `WeekDay`: `getUTCDay()`, with Sunday = 0.  Day 0
(1970-01-01) was a Thursday, hence the offset 4. -/
def weekdayJS (d : CivilDate) : Int :=
  (dayNumber d + 4) % 7

/-- Recover (month, day) from a day-of-year index `o ∈ [0, yearLen)`. -/
def monthFromDoy (leap : Bool) (o : Int) : Int × Int :=
  let l : Int := if leap then 1 else 0
  if o < 31 then (1, o + 1)
  else if o < 59 + l then (2, o - 31 + 1)
  else if o < 90 + l then (3, o - (59 + l) + 1)
  else if o < 120 + l then (4, o - (90 + l) + 1)
  else if o < 151 + l then (5, o - (120 + l) + 1)
  else if o < 181 + l then (6, o - (151 + l) + 1)
  else if o < 212 + l then (7, o - (181 + l) + 1)
  else if o < 243 + l then (8, o - (212 + l) + 1)
  else if o < 273 + l then (9, o - (243 + l) + 1)
  else if o < 304 + l then (10, o - (273 + l) + 1)
  else if o < 334 + l then (11, o - (304 + l) + 1)
  else (12, o - (334 + l) + 1)

/-- One upward year adjustment of a (year, day-of-year index) pair. -/
def normUp (y o : Int) : Int × Int :=
  if yearLen y ≤ o then (y + 1, o - yearLen y) else (y, o)

/-- Two upward year adjustments. -/
def normUp2 (y o : Int) : Int × Int :=
  if yearLen y ≤ o then normUp (y + 1) (o - yearLen y) else (y, o)

/-- Normalize a (year, day-of-year index) pair whose index may stick out of
the year by at most one year downward and two years upward.  ECMAScript
normalizes arbitrary overflow; every construction in the script stays inside
this window (day tokens are at most two digits and day shifts at most ±6),
so the three-step adjustment is exact on the domain actually used. -/
def normYearDoy (y o : Int) : Int × Int :=
  if o < 0 then normUp2 (y - 1) (o + yearLen (y - 1)) else normUp2 y o

/-- Build a date from a normalized (year, day-of-year index) pair. -/
def mkFromDoy (p : Int × Int) : CivilDate :=
  ⟨p.1, (monthFromDoy (isLeap p.1) p.2).1, (monthFromDoy (isLeap p.1) p.2).2⟩

/-- ECMAScript `MakeDay`, i.e. `new Date(Date.UTC(y, mIdx, d))` at midnight:
`mIdx` is the zero-based month which may overflow into adjacent years, and
the day component may overflow the month. -/
def dateUTC (y mIdx d : Int) : CivilDate :=
  mkFromDoy (normYearDoy (y + mIdx / 12)
    (monthOffset (isLeap (y + mIdx / 12)) (mIdx % 12 + 1) + (d - 1)))

theorem yearLen_pos (y : Int) : 365 ≤ yearLen y := by
  unfold yearLen; split <;> omega

theorem yearLen_le (y : Int) : yearLen y ≤ 366 := by
  unfold yearLen; split <;> omega

/-- Bool checker for `monthFromDoy_spec`, evaluated over the finite domain. -/
def mfdOk (leap : Bool) (n : Nat) : Bool :=
  let o : Int := (n : Int)
  let md := monthFromDoy leap o
  decide (1 ≤ md.1 ∧ md.1 ≤ 12 ∧ 1 ≤ md.2 ∧ md.2 ≤ monthLen leap md.1 ∧
    monthOffset leap md.1 + (md.2 - 1) = o)

set_option maxRecDepth 10000 in
theorem mfdOk_all : ∀ leap : Bool, ∀ n : Nat,
    n < (if leap then 366 else 365) → mfdOk leap n = true := by decide

/-- Round trip between `monthFromDoy` and `(monthOffset, day)`, together with
validity of the result, for any in-range day-of-year index. -/
theorem monthFromDoy_spec (leap : Bool) (o : Int) (h0 : 0 ≤ o)
    (h1 : o < if leap then 366 else 365) :
    1 ≤ (monthFromDoy leap o).1 ∧ (monthFromDoy leap o).1 ≤ 12 ∧
      1 ≤ (monthFromDoy leap o).2 ∧
      (monthFromDoy leap o).2 ≤ monthLen leap (monthFromDoy leap o).1 ∧
      monthOffset leap (monthFromDoy leap o).1 + ((monthFromDoy leap o).2 - 1) = o := by
  obtain ⟨n, rfl⟩ := Int.eq_ofNat_of_zero_le h0
  have hn : n < (if leap then 366 else 365) := by cases leap <;> simp_all
  have := mfdOk_all leap n hn
  unfold mfdOk at this
  simpa using of_decide_eq_true this

/-- Bool checker for `doy0_bounds`. -/
def doyBoundsOk (leap : Bool) (m d : Nat) : Bool :=
  let mo : Int := (m : Int) + 1
  let dd : Int := (d : Int) + 1
  decide (dd ≤ monthLen leap mo →
    0 ≤ monthOffset leap mo + (dd - 1) ∧
      monthOffset leap mo + (dd - 1) < if leap then 366 else 365)

set_option maxRecDepth 10000 in
theorem doyBoundsOk_all : ∀ leap : Bool, ∀ m : Nat, m < 12 → ∀ d : Nat, d < 31 →
    doyBoundsOk leap m d = true := by decide

/-- A valid date has day-of-year index inside its year. -/
theorem doy0_bounds (d : CivilDate) (h : d.IsValid) :
    0 ≤ doy0 d ∧ doy0 d < yearLen d.year := by
  obtain ⟨h1, h2, h3, h4⟩ := h
  obtain ⟨m, hm⟩ := Int.eq_ofNat_of_zero_le (a := d.month - 1) (by omega)
  obtain ⟨dd, hdd⟩ := Int.eq_ofNat_of_zero_le (a := d.day - 1) (by omega)
  have hmlt : m < 12 := by omega
  have hdlt : dd < 31 := by
    have h31 : monthLen (isLeap d.year) d.month ≤ 31 := by
      unfold monthLen; split_ifs <;> omega
    omega
  have hok := doyBoundsOk_all (isLeap d.year) m hmlt dd hdlt
  unfold doyBoundsOk at hok
  have := of_decide_eq_true hok
  have hmo : (m : Int) + 1 = d.month := by omega
  have hdo : (dd : Int) + 1 = d.day := by omega
  rw [hmo, hdo] at this
  have := this (by omega)
  unfold doy0 yearLen
  cases hL : isLeap d.year <;> rw [hL] at this <;> simp_all

theorem dayFromYear_succ (y : Int) : dayFromYear (y + 1) = dayFromYear y + yearLen y := by
  unfold dayFromYear yearLen isLeap
  simp only [Bool.or_eq_true, Bool.and_eq_true, beq_iff_eq, bne_iff_ne]
  split_ifs with h <;> omega

theorem dayFromYear_mono {y y' : Int} (h : y ≤ y') : dayFromYear y ≤ dayFromYear y' :=
  Int.le_induction (P := fun n => dayFromYear y ≤ dayFromYear n) le_rfl
    (fun n _ ih => by
      have h1 := dayFromYear_succ n
      have h2 := yearLen_pos n
      omega) y' h

/-- Bool checker giving bounds of `monthOffset` on months 1..12. -/
def moBoundsOk (leap : Bool) (n : Nat) : Bool :=
  let m : Int := (n : Int) + 1
  decide (0 ≤ monthOffset leap m ∧ monthOffset leap m ≤ if leap then 335 else 334)

theorem moBoundsOk_all : ∀ leap : Bool, ∀ n : Nat, n < 12 → moBoundsOk leap n = true := by
  decide

theorem monthOffset_bounds (leap : Bool) (m : Int) (h1 : 1 ≤ m) (h2 : m ≤ 12) :
    0 ≤ monthOffset leap m ∧ monthOffset leap m ≤ if leap then 335 else 334 := by
  obtain ⟨n, hn⟩ := Int.eq_ofNat_of_zero_le (a := m - 1) (by omega)
  have hlt : n < 12 := by omega
  have hok := moBoundsOk_all leap n hlt
  unfold moBoundsOk at hok
  have := of_decide_eq_true hok
  have hms : (n : Int) + 1 = m := by omega
  rwa [hms] at this

/-- Behaviour of `normYearDoy` on the window of day-of-year indices the
script can produce: the result index is in range for its year, the year
moves by at most one step down and two up, and an in-range input is fixed. -/
theorem normYearDoy_spec (y o : Int) (hlo : -365 ≤ o) (hhi : o ≤ 1000) :
    0 ≤ (normYearDoy y o).2 ∧ (normYearDoy y o).2 < yearLen (normYearDoy y o).1 ∧
      y - 1 ≤ (normYearDoy y o).1 ∧ (normYearDoy y o).1 ≤ y + 2 ∧
      (o ≤ 729 → (normYearDoy y o).1 ≤ y + 1) ∧
      (0 ≤ o → o < yearLen y → normYearDoy y o = (y, o)) := by
  have p1 := yearLen_pos (y - 1); have q1 := yearLen_le (y - 1)
  have p2 := yearLen_pos y; have q2 := yearLen_le y
  have p3 := yearLen_pos (y + 1); have q3 := yearLen_le (y + 1)
  have p4 := yearLen_pos (y - 1 + 1); have q4 := yearLen_le (y - 1 + 1)
  have p5 := yearLen_pos (y + 1 + 1); have q5 := yearLen_le (y + 1 + 1)
  unfold normYearDoy normUp2 normUp
  split_ifs <;> simp_all <;> omega

/-- `Date.UTC` applied to an in-range month index and a day token of at most
two digits yields the expected normalized year together with validity.  The
day may overflow the month (e.g. `30.02.`) but never the year. -/
theorem dateUTC_spec (y m d : Int) (hm1 : 1 ≤ m) (hm2 : m ≤ 12)
    (hd1 : 1 ≤ d) (hd2 : d ≤ 31) :
    (dateUTC y (m - 1) d).year = y ∧ (dateUTC y (m - 1) d).IsValid := by
  have hdiv : (m - 1) / 12 = 0 := by omega
  have hmod : (m - 1) % 12 = m - 1 := by omega
  have hoff := monthOffset_bounds (isLeap y) m hm1 hm2
  unfold dateUTC
  rw [hdiv, hmod, add_zero, sub_add_cancel]
  set o := monthOffset (isLeap y) m + (d - 1) with ho
  have hid : normYearDoy y o = (y, o) := by
    have hs := normYearDoy_spec y o (by split_ifs at hoff <;> omega)
      (by split_ifs at hoff <;> omega)
    refine hs.2.2.2.2.2 (by split_ifs at hoff <;> omega) ?_
    unfold yearLen
    split_ifs at hoff ⊢ <;> omega
  rw [hid]
  have hbound : o < if isLeap y then 366 else 365 := by split_ifs at hoff ⊢ <;> omega
  have hmfd := monthFromDoy_spec (isLeap y) o (by split_ifs at hoff <;> omega) hbound
  refine ⟨rfl, ?_⟩
  unfold mkFromDoy CivilDate.IsValid
  exact ⟨hmfd.1, hmfd.2.1, hmfd.2.2.1, hmfd.2.2.2.1⟩

theorem dayNumber_lt_of_year_lt (a b : CivilDate) (ha : a.IsValid) (hb : b.IsValid)
    (h : a.year < b.year) : dayNumber a < dayNumber b := by
  have h1 := doy0_bounds a ha
  have h2 := doy0_bounds b hb
  have h3 := dayFromYear_succ a.year
  have h4 := @dayFromYear_mono (a.year + 1) b.year (by omega)
  unfold dayNumber
  omega

/-!
Text utilities (`cleanText`, `parseLocaleNumber`) and the regular-expression
scans, modelled as direct left-to-right scans over the character list.
-/

/-- JavaScript `\s` restricted to the ASCII whitespace the source pages can
contain. -/
def isWsChar (c : Char) : Bool :=
  c == ' ' || c == '\t' || c == '\n' || c == '\r' || c == '\x0b' || c == '\x0c'

/-- Collapse every whitespace run to a single blank, tracking whether the
previous character was whitespace: the model of `.replace(/\s+/g, " ")`. -/
def collapseWsAux : Bool → List Char → List Char
  | _, [] => []
  | prev, c :: rest =>
    if isWsChar c then
      if prev then collapseWsAux true rest else ' ' :: collapseWsAux true rest
    else c :: collapseWsAux false rest

/-- `cleanText`: collapse whitespace runs, then trim.  After collapsing, all
whitespace is a plain blank, so trimming blanks is exactly `.trim()`. -/
def cleanText (s : String) : String :=
  ⟨(((collapseWsAux false s.data).dropWhile (· == ' ')).reverse.dropWhile (· == ' ')).reverse⟩

/-- Numeric value of two decimal digit characters. -/
def digits2 (a b : Char) : Nat :=
  10 * (a.toNat - 48) + (b.toNat - 48)

/-- Try to match `(\d{2})\.(\d{2})\.` at the head of the character list. -/
def ddmmAt : List Char → Option (Nat × Nat)
  | a :: b :: c :: x :: y :: z :: _ =>
    if a.isDigit && b.isDigit && c == '.' && x.isDigit && y.isDigit && z == '.' then
      some (digits2 a b, digits2 x y)
    else none
  | _ => none

/-- First match of `/(\d{2})\.(\d{2})\./` scanning left to right. -/
def findDDMMList : List Char → Option (Nat × Nat)
  | [] => none
  | c :: rest =>
    match ddmmAt (c :: rest) with
    | some r => some r
    | none => findDDMMList rest

/-- The day-label pattern of `resolveDayDate`: `label.match(/(\d{2})\.(\d{2})\./)`. -/
def findDDMM (s : String) : Option (Nat × Nat) :=
  findDDMMList s.data

/-- Try to match `(\d{2})\.(\d{2})\.(\d{4})` at the head of the list. -/
def ddmmyyyyAt : List Char → Option (Nat × Nat × Nat)
  | a :: b :: c :: x :: y :: z :: p :: q :: r :: s :: _ =>
    if a.isDigit && b.isDigit && c == '.' && x.isDigit && y.isDigit && z == '.'
        && p.isDigit && q.isDigit && r.isDigit && s.isDigit then
      some (digits2 a b, digits2 x y,
        100 * digits2 p q + digits2 r s)
    else none
  | _ => none

/-- First match of `/(\d{2})\.(\d{2})\.(\d{4})/` scanning left to right. -/
def findDDMMYYYYList : List Char → Option (Nat × Nat × Nat)
  | [] => none
  | c :: rest =>
    match ddmmyyyyAt (c :: rest) with
    | some r => some r
    | none => findDDMMYYYYList rest

/-- `extractFirstDate`: first `DD.MM.YYYY` in the heading, combined through
`Date.UTC(year, month - 1, day)`; `null` when no match. -/
def extractFirstDate (text : String) : Option CivilDate :=
  match findDDMMYYYYList text.data with
  | none => none
  | some (day, month, year) => some (dateUTC (year : Int) ((month : Int) - 1) (day : Int))

/-!
The date resolver (`resolveDayDate`), its threading over a container's rows,
and the supporting order/year lemmas for claim C1.
-/

/-- `resolveDayDate(label, startDate, previous)`: parse `DD.MM.` out of the
label (fatal when absent), pick the previous date's year when one exists and
otherwise the anchor's year, move one year forward when the candidate would
precede the previous date, and for the first row rebuild from the anchor's
year when the candidate month differs from the anchor month (a rebuild that
reproduces the same date, since the candidate already used that year). -/
def resolveDayDate (label : String) (startDate : CivilDate)
    (previous : Option CivilDate) : Except String CivilDate :=
  match findDDMM label with
  | none => .error ("Unable to parse day label \"" ++ label ++ "\".")
  | some (d, m) =>
    let day : Int := (d : Int)
    let month : Int := (m : Int)
    let year : Int :=
      match previous with
      | some p => p.year
      | none => startDate.year
    let candidate := dateUTC year (month - 1) day
    match previous with
    | some p =>
      if dayNumber candidate < dayNumber p then
        .ok (dateUTC (year + 1) (month - 1) day)
      else
        .ok candidate
    | none =>
      if candidate.month ≠ startDate.month then
        .ok (dateUTC startDate.year (month - 1) day)
      else
        .ok candidate

/-- Thread `resolveDayDate` along a list of labels the way the extraction
loop does, each result becoming the `previous` of the next call. -/
def resolveChain (startDate : CivilDate) (labels : List String)
    (previous : Option CivilDate) : Except String (List CivilDate) :=
  match labels with
  | [] => .ok []
  | l :: ls =>
    match resolveDayDate l startDate previous with
    | .error e => .error e
    | .ok d =>
      match resolveChain startDate ls (some d) with
      | .error e => .error e
      | .ok rest => .ok (d :: rest)

/-- A day label whose first `DD.MM.` match carries a calendar-plausible day
(1..31) and month (1..12). -/
def goodLabel (l : String) : Bool :=
  match findDDMM l with
  | some (d, m) => decide (1 ≤ d ∧ d ≤ 31 ∧ 1 ≤ m ∧ m ≤ 12)
  | none => false

/-- Number of adjacent year increments along a resolved sequence. -/
def yearIncCount : List CivilDate → Nat
  | a :: b :: rest => (if b.year = a.year + 1 then 1 else 0) + yearIncCount (b :: rest)
  | _ => 0

/-- Stepping from a valid previous date with a calendar-plausible label: the
call succeeds, the result is valid, never chronologically precedes the
previous date, and its year is the previous year or its successor. -/
theorem resolveDayDate_step (label : String) (startDate p : CivilDate)
    (hp : p.IsValid) (hl : goodLabel label = true) :
    ∃ r, resolveDayDate label startDate (some p) = .ok r ∧ r.IsValid ∧
      dayNumber p ≤ dayNumber r ∧ (r.year = p.year ∨ r.year = p.year + 1) := by
  unfold goodLabel at hl
  rcases hf : findDDMM label with _ | ⟨d, m⟩
  · rw [hf] at hl; simp at hl
  · rw [hf] at hl
    obtain ⟨h1, h2, h3, h4⟩ := of_decide_eq_true hl
    have hm1 : (1 : Int) ≤ (m : Int) := by exact_mod_cast h3
    have hm2 : (m : Int) ≤ 12 := by exact_mod_cast h4
    have hd1 : (1 : Int) ≤ (d : Int) := by exact_mod_cast h1
    have hd2 : (d : Int) ≤ 31 := by exact_mod_cast h2
    have hc := dateUTC_spec p.year (m : Int) (d : Int) hm1 hm2 hd1 hd2
    by_cases hlt : dayNumber (dateUTC p.year ((m : Int) - 1) (d : Int)) < dayNumber p
    · have hc2 := dateUTC_spec (p.year + 1) (m : Int) (d : Int) hm1 hm2 hd1 hd2
      refine ⟨dateUTC (p.year + 1) ((m : Int) - 1) (d : Int), ?_, hc2.2, ?_, Or.inr hc2.1⟩
      · simp only [resolveDayDate, hf]
        rw [if_pos hlt]
      · have := dayNumber_lt_of_year_lt p (dateUTC (p.year + 1) ((m : Int) - 1) (d : Int))
          hp hc2.2 (by omega)
        omega
    · refine ⟨dateUTC p.year ((m : Int) - 1) (d : Int), ?_, hc.2, by omega, Or.inl hc.1⟩
      simp only [resolveDayDate, hf]
      rw [if_neg hlt]

/-- The first row of a container: both branches of the anchor-month guard
rebuild the same date, whose year is the anchor's year. -/
theorem resolveDayDate_first (label : String) (startDate : CivilDate)
    (hl : goodLabel label = true) :
    ∃ r, resolveDayDate label startDate none = .ok r ∧ r.IsValid ∧
      r.year = startDate.year := by
  unfold goodLabel at hl
  rcases hf : findDDMM label with _ | ⟨d, m⟩
  · rw [hf] at hl; simp at hl
  · rw [hf] at hl
    obtain ⟨h1, h2, h3, h4⟩ := of_decide_eq_true hl
    have hc := dateUTC_spec startDate.year (m : Int) (d : Int)
      (by exact_mod_cast h3) (by exact_mod_cast h4)
      (by exact_mod_cast h1) (by exact_mod_cast h2)
    refine ⟨dateUTC startDate.year ((m : Int) - 1) (d : Int), ?_, hc.2, hc.1⟩
    simp only [resolveDayDate, hf]
    split_ifs <;> rfl

/-- Threading `resolveDayDate` from a valid previous date over plausible
labels always succeeds and yields a chain that is chronologically
non-decreasing with single-step year growth. -/
theorem resolveChain_spec (startDate : CivilDate) :
    ∀ (labels : List String) (p : CivilDate), p.IsValid →
    (∀ l ∈ labels, goodLabel l = true) →
    ∃ ds, resolveChain startDate labels (some p) = .ok ds ∧
      List.Chain (fun a b => dayNumber a ≤ dayNumber b ∧
        (b.year = a.year ∨ b.year = a.year + 1)) p ds := by
  intro labels
  induction labels with
  | nil => exact fun p _ _ => ⟨[], rfl, List.Chain.nil⟩
  | cons l ls ih =>
      intro p hp hg
      obtain ⟨r, hr, hrv, hord, hyr⟩ := resolveDayDate_step l startDate p hp
        (hg l (by simp))
      obtain ⟨ds, hds, hchain⟩ := ih r hrv (fun x hx => hg x (by simp [hx]))
      refine ⟨r :: ds, ?_, List.Chain.cons ⟨hord, hyr⟩ hchain⟩
      simp only [resolveChain, hr, hds]

/-- Along a chain whose steps keep the year or advance it by one, the final
year is the initial year plus the number of increment steps. -/
theorem chain_year_sum :
    ∀ (ds : List CivilDate) (p : CivilDate),
    List.Chain (fun a b => b.year = a.year ∨ b.year = a.year + 1) p ds →
    (ds.getLastD p).year = p.year + (yearIncCount (p :: ds) : Int) := by
  intro ds
  induction ds with
  | nil => intro p _; simp [yearIncCount]
  | cons b rest ih =>
      intro p h
      rcases h with _ | ⟨hstep, htail⟩
      have hih := ih b htail
      rw [List.getLastD_cons]
      show (rest.getLastD b).year = p.year + ((
        (if b.year = p.year + 1 then 1 else 0) + yearIncCount (b :: rest) : Nat) : Int)
      rcases hstep with h1 | h1 <;> split_ifs <;> push_cast at hih ⊢ <;> omega

/-- C1 (amended): for every anchor date and every sequence of day labels
whose first `DD.MM.` match has day 1..31 and month 1..12, threading
`resolveDayDate` in source order succeeds and yields chronologically
non-decreasing dates whose years grow by at most one per step; the final
year exceeds the first by exactly the number of increment steps, so a
sequence that spans one year boundary increments the year exactly once. -/
theorem resolveDayDate_chain_monotone (startDate : CivilDate) (labels : List String)
    (hGood : ∀ l ∈ labels, goodLabel l = true) :
    ∃ ds, resolveChain startDate labels none = .ok ds ∧
      List.Chain' (fun a b => dayNumber a ≤ dayNumber b) ds ∧
      List.Chain' (fun a b => b.year = a.year ∨ b.year = a.year + 1) ds ∧
      ∀ d1 ∈ ds.head?, (ds.getLastD d1).year = d1.year + (yearIncCount ds : Int) ∧
        ((ds.getLastD d1).year = d1.year + 1 → yearIncCount ds = 1) := by
  cases labels with
  | nil => exact ⟨[], rfl, trivial, trivial, by simp⟩
  | cons l ls =>
      obtain ⟨d1, hfirst, hv1, _⟩ := resolveDayDate_first l startDate (hGood l (by simp))
      obtain ⟨ds', hds', hchain⟩ := resolveChain_spec startDate ls d1 hv1
        (fun x hx => hGood x (by simp [hx]))
      refine ⟨d1 :: ds', ?_, ?_, ?_, ?_⟩
      · simp only [resolveChain, hfirst, hds']
      · show List.Chain _ d1 ds'
        exact hchain.imp fun _ _ h => h.1
      · show List.Chain _ d1 ds'
        exact hchain.imp fun _ _ h => h.2
      · intro x hx
        have hx1 : x = d1 := by
          simpa [Option.mem_def, eq_comm] using hx
        subst hx1
        have hsum := chain_year_sum ds' x (hchain.imp fun _ _ h => h.2)
        rw [List.getLastD_cons]
        exact ⟨hsum, fun hb => by omega⟩

instance {e a : Type} [DecidableEq e] [DecidableEq a] : DecidableEq (Except e a)
  | .error x, .error y =>
    decidable_of_iff (x = y) ⟨fun h => by rw [h], fun h => by cases h; rfl⟩
  | .ok x, .ok y =>
    decidable_of_iff (x = y) ⟨fun h => by rw [h], fun h => by cases h; rfl⟩
  | .error _, .ok _ => isFalse (fun h => by cases h)
  | .ok _, .error _ => isFalse (fun h => by cases h)

/-- C1 counterexample: the claim as stated quantifies over all labels with a
parseable `DD.MM.` substring.  The label `00.00.` parses (day 0, month 0),
and after `31.12.` resolved to 2024-12-31 it resolves to 2024-11-30, so the
threaded sequence is not non-decreasing. -/
theorem resolveDayDate_chain_cex :
    (∀ l ∈ ["31.12.", "00.00."], (findDDMM l).isSome = true) ∧
    resolveChain ⟨2024, 12, 30⟩ ["31.12.", "00.00."] none =
      .ok [⟨2024, 12, 31⟩, ⟨2024, 11, 30⟩] ∧
    dayNumber ⟨2024, 11, 30⟩ < dayNumber ⟨2024, 12, 31⟩ := by decide

/-- Witness for C1 at a concrete year-boundary instance. -/
theorem resolveDayDate_chain_monotone_witness :
    ∃ ds, resolveChain ⟨2024, 12, 30⟩ ["30.12.", "02.01."] none = .ok ds ∧
      List.Chain' (fun a b => dayNumber a ≤ dayNumber b) ds ∧
      List.Chain' (fun a b => b.year = a.year ∨ b.year = a.year + 1) ds ∧
      ∀ d1 ∈ ds.head?, (ds.getLastD d1).year = d1.year + (yearIncCount ds : Int) ∧
        ((ds.getLastD d1).year = d1.year + 1 → yearIncCount ds = 1) :=
  resolveDayDate_chain_monotone ⟨2024, 12, 30⟩ ["30.12.", "02.01."] (by decide)

/-!
ISO week computation (`isoWeek`, claim C5).
-/

/-- `isoWeek(date)`: copy the date, shift it to the Thursday of its week via
`setUTCDate(getUTCDate() + 4 - (getUTCDay() || 7))`, then
`Math.ceil(((thu - startOfThuYear) / 86400000 + 1) / 7)` with the Thursday's
year as the ISO year.  The exact integer form of the ceiling is `(n + 6) / 7`
under floor division. -/
def isoWeek (d : CivilDate) : Int × Int :=
  let dayNum := if weekdayJS d = 0 then 7 else weekdayJS d
  let thu := dateUTC d.year (d.month - 1) (d.day + 4 - dayNum)
  let week := (dayNumber thu - dayNumber ⟨thu.year, 1, 1⟩ + 1 + 6) / 7
  (thu.year, week)

/-- Spec-side reading: day-of-week numbered Monday=1..Sunday=7. -/
def isoDayNumMon (d : CivilDate) : Int :=
  if weekdayJS d = 0 then 7 else weekdayJS d

/-- Spec-side reading: the Thursday of the date's Monday-based week. -/
def thursdayOfWeek (d : CivilDate) : CivilDate :=
  dateUTC d.year (d.month - 1) (d.day + (4 - isoDayNumMon d))

/-- Spec-side reading: days elapsed since January 1 of the date's own year. -/
def daysSinceJan1 (d : CivilDate) : Int :=
  dayNumber d - dayNumber ⟨d.year, 1, 1⟩

/-- Exact ceiling division for a positive divisor. -/
def specCeilDiv (a b : Int) : Int :=
  -((-a) / b)

/-- C5: `isoWeek` computes the ISO-8601 week exactly as the specification
describes it (shift to the Thursday of the Monday-based week, then the
ceiling of `(daysSinceJan1 + 1) / 7`, with the Thursday's year as the ISO
year), and the two documented boundary examples hold: 2024-12-30 is ISO
(2025, week 1) and 2023-01-01 is ISO (2022, week 52). -/
theorem isoWeek_spec :
    (∀ d : CivilDate, isoWeek d =
      ((thursdayOfWeek d).year,
        specCeilDiv (daysSinceJan1 (thursdayOfWeek d) + 1) 7)) ∧
    isoWeek ⟨2024, 12, 30⟩ = (2025, 1) ∧
    isoWeek ⟨2023, 1, 1⟩ = (2022, 52) := by
  refine ⟨fun d => ?_, by decide, by decide⟩
  unfold isoWeek thursdayOfWeek daysSinceJan1 specCeilDiv isoDayNumMon
  have harr : ∀ a b c : Int, a + b - c = a + (b - c) := fun a b c => by omega
  simp only [Prod.mk.injEq, harr]
  exact ⟨trivial, by omega⟩

/-!
Meal normalization (`parseMeal`, `derivePriceLabels`, claim C4).  Price
amounts are represented exactly in euro cents; `parseLocaleNumber` turns the
matched token `i,f` into the float `i + f/100`, which the cent count
determines exactly.
-/

structure MealPrice where
  raw : String
  currency : String
  values : List Nat
  labels : List String
deriving DecidableEq, Repr

structure MealEntry where
  title : String
  allergens : List String
  allergensRaw : Option String
  price : Option MealPrice
  highlight : Bool
deriving DecidableEq, Repr

/-- `derivePriceLabels(count)`. -/
def derivePriceLabels (count : Nat) : List String :=
  if count = 2 then ["students", "guests"]
  else if count = 3 then ["students", "staff", "guests"]
  else []

/-- Match `\d{2},\d{2}` at the head (the greedy two-digit attempt). -/
def priceTok2 : List Char → Option Nat
  | a :: b :: c :: x :: y :: _ =>
    if a.isDigit && b.isDigit && c == ',' && x.isDigit && y.isDigit then
      some (digits2 a b * 100 + digits2 x y)
    else none
  | _ => none

/-- Match `\d,\d{2}` at the head (the one-digit fallback). -/
def priceTok1 : List Char → Option Nat
  | a :: c :: x :: y :: _ =>
    if a.isDigit && c == ',' && x.isDigit && y.isDigit then
      some ((a.toNat - 48) * 100 + digits2 x y)
    else none
  | _ => none

/-- Left-to-right non-overlapping scan of `/(\d{1,2},\d{2})/g`, as
`matchAll` performs it: at each position try the greedy two-digit form, then
the one-digit form, else advance one character; a match consumes its length.
The fuel argument is the remaining character count, which suffices because
every step consumes at least one character. -/
def scanPricesAux : Nat → List Char → List Nat
  | 0, _ => []
  | _, [] => []
  | fuel + 1, c :: rest =>
    match priceTok2 (c :: rest) with
    | some v => v :: scanPricesAux fuel (rest.drop 4)
    | none =>
      match priceTok1 (c :: rest) with
      | some v => v :: scanPricesAux fuel (rest.drop 3)
      | none => scanPricesAux fuel rest

/-- All price amounts (euro cents) in a text, in source order. -/
def scanPrices (s : String) : List Nat :=
  scanPricesAux s.data.length s.data

/-- Split at commas: the model of `String.prototype.split(",")`. -/
def splitCommaAux : List Char → List Char → List String
  | [], acc => [⟨acc.reverse⟩]
  | ',' :: rest, acc => (⟨acc.reverse⟩ : String) :: splitCommaAux rest []
  | c :: rest, acc => splitCommaAux rest (c :: acc)

/-- Strip one leading `(` and one trailing `)`: `.replace(/^\(|\)$/g, "")`. -/
def stripOuterParens (s : String) : String :=
  let a := if s.data.head? = some '(' then s.data.tail else s.data
  ⟨if a.getLast? = some ')' then a.dropLast else a⟩

/-- One menu-item fragment, described by the texts the scraper reads off it:
the heading with its `<small>` annotation removed, the `<small>` text, the
`.price` text, and the `item-tip` class flag. -/
structure ItemData where
  headingText : String
  smallText : String
  priceText : String
  isTip : Bool
deriving DecidableEq, Repr

/-- `parseMeal(item)`. -/
def parseMeal (item : ItemData) : MealEntry :=
  let title := cleanText item.headingText
  let allergensRaw := stripOuterParens (cleanText item.smallText)
  let allergens :=
    if 0 < allergensRaw.data.length then
      ((splitCommaAux allergensRaw.data []).map cleanText).filter (fun t => t ≠ "")
    else []
  let priceText := cleanText item.priceText
  let priceValues := scanPrices priceText
  let price : Option MealPrice :=
    if 0 < priceValues.length then
      some ⟨priceText, "EUR", priceValues, derivePriceLabels priceValues.length⟩
    else none
  ⟨title, allergens, if 0 < allergensRaw.data.length then some allergensRaw else none,
    price, item.isTip⟩

/-- C4: the tier labels of a parsed meal are exactly count-derived: two
amounts give students/guests, three give students/staff/guests, any other
positive count gives an empty label list while `values` keeps every parsed
amount in source order, and zero amounts give a null price. -/
theorem parseMeal_price_labels (item : ItemData) :
    ((scanPrices (cleanText item.priceText)).length = 2 →
      (parseMeal item).price = some ⟨cleanText item.priceText, "EUR",
        scanPrices (cleanText item.priceText), ["students", "guests"]⟩) ∧
    ((scanPrices (cleanText item.priceText)).length = 3 →
      (parseMeal item).price = some ⟨cleanText item.priceText, "EUR",
        scanPrices (cleanText item.priceText), ["students", "staff", "guests"]⟩) ∧
    (0 < (scanPrices (cleanText item.priceText)).length →
      (scanPrices (cleanText item.priceText)).length ≠ 2 →
      (scanPrices (cleanText item.priceText)).length ≠ 3 →
      (parseMeal item).price = some ⟨cleanText item.priceText, "EUR",
        scanPrices (cleanText item.priceText), []⟩) ∧
    ((scanPrices (cleanText item.priceText)).length = 0 →
      (parseMeal item).price = none) := by
  unfold parseMeal
  simp only []
  refine ⟨fun h2 => ?_, fun h3 => ?_, fun hp hn2 hn3 => ?_, fun h0 => ?_⟩
  · rw [if_pos (by omega)]
    unfold derivePriceLabels
    rw [h2]
    norm_num
  · rw [if_pos (by omega)]
    unfold derivePriceLabels
    rw [h3]
    norm_num
  · rw [if_pos hp]
    unfold derivePriceLabels
    rw [if_neg hn2, if_neg hn3]
  · rw [if_neg (by omega)]

/-- Witness for C4 on a two-tier price fragment. -/
theorem parseMeal_price_labels_witness :
    (scanPrices (cleanText "2,50 € / 3,90 €")).length = 2 ∧
    (parseMeal ⟨"Dish", "", "2,50 € / 3,90 €", false⟩).price =
      some ⟨cleanText "2,50 € / 3,90 €", "EUR",
        scanPrices (cleanText "2,50 € / 3,90 €"), ["students", "guests"]⟩ :=
  ⟨by decide,
    (parseMeal_price_labels ⟨"Dish", "", "2,50 € / 3,90 €", false⟩).1 (by decide)⟩

/-!
Legend parsing (`parseLegendEntries`, `parseLegend`, claim C9).  The
category pattern scan (`regex.exec` in a loop over a freshly constructed
`RegExp`, so no matcher state survives a call) is abstracted as the list of
captured (code, description) pairs it yields on the column text; the
function below performs exactly what the loop body does with each match:
clean the key, clean the description and strip one trailing period, and
assign into the record, which keeps the first insertion position of a key
while overwriting its value.
-/

/-- Strip one trailing period: `.replace(/\.$/, "")`. -/
def stripTrailingDot (s : String) : String :=
  if s.data.getLast? = some '.' then ⟨s.data.dropLast⟩ else s

/-- JavaScript object assignment `entries[key] = value` on a record
represented as an insertion-ordered association list: an existing key keeps
its position and takes the new value, a new key is appended. -/
def upsert (entries : List (String × String)) (k v : String) :
    List (String × String) :=
  match entries with
  | [] => [(k, v)]
  | (k', v') :: rest => if k' = k then (k', v) :: rest else (k', v') :: upsert rest k v

/-- `parseLegendEntries`: fold the matches in scan order into the record,
skipping matches whose cleaned key is empty. -/
def parseLegendEntries (matchList : List (String × String)) :
    List (String × String) :=
  matchList.foldl (fun acc kv =>
    let key := cleanText kv.1
    let value := stripTrailingDot (cleanText kv.2)
    if key ≠ "" then upsert acc key value else acc) []

theorem mem_upsert_key (entries : List (String × String)) (k v : String) :
    ∀ a ∈ upsert entries k v, a.1 = k ∨ ∃ b ∈ entries, a.1 = b.1 := by
  induction entries with
  | nil =>
      intro a ha
      simp only [upsert, List.mem_singleton] at ha
      subst ha
      exact Or.inl rfl
  | cons hd tl ih =>
      obtain ⟨k', v'⟩ := hd
      intro a ha
      simp only [upsert] at ha
      split_ifs at ha with hk
      · rw [List.mem_cons] at ha
        rcases ha with rfl | ha
        · exact Or.inl hk
        · exact Or.inr ⟨a, List.mem_cons_of_mem _ ha, rfl⟩
      · rw [List.mem_cons] at ha
        rcases ha with rfl | ha
        · exact Or.inr ⟨(k', v'), List.mem_cons_self _ _, rfl⟩
        · rcases ih a ha with h | ⟨b, hb, he⟩
          · exact Or.inl h
          · exact Or.inr ⟨b, List.mem_cons_of_mem _ hb, he⟩

theorem upsert_keys_distinct (entries : List (String × String)) (k v : String)
    (h : entries.Pairwise (fun a b => a.1 ≠ b.1)) :
    (upsert entries k v).Pairwise (fun a b => a.1 ≠ b.1) := by
  induction entries with
  | nil => simp [upsert]
  | cons hd tl ih =>
      obtain ⟨k', v'⟩ := hd
      rcases List.pairwise_cons.mp h with ⟨hhd, htl⟩
      simp only [upsert]
      split_ifs with hk
      · exact List.pairwise_cons.mpr ⟨fun a ha => hhd a ha, htl⟩
      · refine List.pairwise_cons.mpr ⟨?_, ih htl⟩
        intro a ha
        rcases mem_upsert_key tl k v a ha with he | ⟨b, hb, he⟩
        · intro c
          exact hk (c.trans he)
        · intro c
          exact hhd b hb (c.trans he)

/-- C9: parsing a legend column is deterministic (the result depends only on
the matched pairs, which are a function of text and pattern, the fresh
`RegExp` holding no cross-call state), and the resulting record's keys are
pairwise distinct within the sub-category. -/
theorem parseLegendEntries_deterministic_distinct
    (matchList : List (String × String)) :
    parseLegendEntries matchList = parseLegendEntries matchList ∧
    (parseLegendEntries matchList).Pairwise (fun a b => a.1 ≠ b.1) := by
  refine ⟨rfl, ?_⟩
  unfold parseLegendEntries
  have core : ∀ (ms : List (String × String)) (acc : List (String × String)),
      acc.Pairwise (fun a b => a.1 ≠ b.1) →
      (ms.foldl (fun acc kv =>
        let key := cleanText kv.1
        let value := stripTrailingDot (cleanText kv.2)
        if key ≠ "" then upsert acc key value else acc) acc).Pairwise
        (fun a b => a.1 ≠ b.1) := by
    intro ms
    induction ms with
    | nil => intro acc h; exact h
    | cons kv tl ih =>
        intro acc h
        simp only [List.foldl_cons]
        split_ifs with hk
        · exact ih _ (upsert_keys_distinct acc _ _ h)
        · exact ih _ h
  exact core matchList [] (by simp)

/-!
The menu-page extractor (`parseMenuPage`, `parseDishRow`, claims C2 and C6).
A week-container (`.box-speiseplan .block-space`) is described by its heading
text, the texts of its `.week .day` elements and its `.dishes .row.list-dish`
rows, each row being its `> .col-md-6` columns, each column the tag children
the walker inspects.  Out-of-range indexing `dayNodes[index]` gives
`undefined`, and `$(undefined).text()` is the empty string, which the model
renders as `List.getD _ _ ""` (equivalently, popping the head of the
remaining day-label texts with `""` when exhausted).
-/

structure MealCategory where
  title : String
  meals : List MealEntry
deriving DecidableEq, Repr

/-- A tag child of a dish-row column: an `h3` heading, an `.item` fragment,
or any other tag (skipped, as are non-tag nodes). -/
inductive DishNode where
  | heading (title : String)
  | item (data : ItemData)
  | other
deriving DecidableEq, Repr

/-- Append a meal to the mutable `current` category, which is always the
most recently pushed category. -/
def appendMealToLast (cats : List MealCategory) (meal : MealEntry) :
    List MealCategory :=
  match cats with
  | [] => []
  | [c] => [⟨c.title, c.meals ++ [meal]⟩]
  | c :: rest => c :: appendMealToLast rest meal

/-- One node step of `parseDishRow`: the Bool tracks whether `current` is
open (non-null) in this column. -/
def dishStep (st : List MealCategory × Bool) (n : DishNode) :
    List MealCategory × Bool :=
  match n with
  | .heading t => (st.1 ++ [⟨cleanText t, []⟩], true)
  | .item data =>
    if st.2 then (appendMealToLast st.1 (parseMeal data), true)
    else (st.1 ++ [⟨"Uncategorized", [parseMeal data]⟩], true)
  | .other => st

/-- `parseDishRow(row, $)`: walk the columns (the `current` pointer resets
per column while the category array persists), then drop empty categories. -/
def parseDishRow (row : List (List DishNode)) : List MealCategory :=
  (row.foldl (fun cats col => (col.foldl dishStep (cats, false)).1) []).filter
    (fun c => 0 < c.meals.length)

structure Legend where
  info : List (String × String)
  allergens : List (String × String)
  additives : List (String × String)
deriving DecidableEq, Repr

/-- The three legend columns when the `Erläuterungen` heading, its following
`.row` and the `.col-sm-4` columns are all present, each abstracted as the
(code, description) pairs its category pattern captures on the column text. -/
structure LegendCols where
  infoMatches : List (String × String)
  allergensMatches : List (String × String)
  additivesMatches : List (String × String)
deriving DecidableEq, Repr

/-- `parseLegend($)`: `null` when the heading, row or columns are absent. -/
def parseLegend (cols : Option LegendCols) : Option Legend :=
  match cols with
  | none => none
  | some c =>
    some ⟨parseLegendEntries c.infoMatches,
      parseLegendEntries c.allergensMatches,
      parseLegendEntries c.additivesMatches⟩

/-- Decimal rendering of a natural number, fuelled by the number itself
(whose digit count it strictly dominates), so that it is structural and
kernel-computable. -/
def natToCharsAux : Nat → Nat → List Char
  | 0, _ => []
  | fuel + 1, n =>
    if n < 10 then [Nat.digitChar n]
    else natToCharsAux fuel (n / 10) ++ [Nat.digitChar (n % 10)]

/-- JavaScript `String(n)` for a non-negative integer. -/
def natToString (n : Nat) : String :=
  ⟨natToCharsAux (n + 1) n⟩

/-- JavaScript `String(i)` for an integer. -/
def intToString (i : Int) : String :=
  if i < 0 then "-" ++ natToString (-i).toNat else natToString i.toNat

/-- Left-pad with zeroes to width `k` (`String.prototype.padStart(k, "0")`). -/
def padZero (k : Nat) (s : String) : String :=
  if s.data.length < k then ⟨List.replicate (k - s.data.length) '0' ++ s.data⟩ else s

/-- `formatIsoDate`: `toISOString().slice(0, 10)`, i.e. `YYYY-MM-DD` for the
years 0..9999 the scraper can meet. -/
def formatIsoDate (d : CivilDate) : String :=
  padZero 4 (intToString d.year) ++ "-" ++ padZero 2 (intToString d.month)
    ++ "-" ++ padZero 2 (intToString d.day)

structure DayMenu where
  date : String
  label : String
  categories : List MealCategory
deriving DecidableEq, Repr

/-- A week-container. -/
structure Block where
  heading : String
  dayNodes : List String
  dishRows : List (List (List DishNode))
deriving DecidableEq, Repr

/-- A source document: its week-containers and the legend columns when the
legend structure is present. -/
structure PageDoc where
  blocks : List Block
  legendCols : Option LegendCols
deriving DecidableEq, Repr

structure ParsedMenu where
  days : List DayMenu
  legend : Option Legend
deriving DecidableEq, Repr

/-- The per-container loop of `parseMenuPage`: it iterates over the dish
rows (not over the day labels), reading the day label at the same index,
which is the empty string once the day labels are exhausted. -/
def blockRows (startDate : CivilDate) :
    List (List (List DishNode)) → List String → Option CivilDate →
    Except String (List DayMenu)
  | [], _, _ => .ok []
  | row :: rows, dayNodes, previous =>
    let label := cleanText (dayNodes.headD "")
    match resolveDayDate label startDate previous with
    | .error e => .error e
    | .ok resolved =>
      match blockRows startDate rows dayNodes.tail (some resolved) with
      | .error e => .error e
      | .ok rest => .ok (⟨formatIsoDate resolved, label, parseDishRow row⟩ :: rest)

/-- One week-container: derive the anchor from the heading (falling back to
`now`), then run the row loop.  The day/dish count comparison only emits a
console warning, which has no bearing on the produced value. -/
def parseBlock (now : CivilDate) (b : Block) : Except String (List DayMenu) :=
  let heading := cleanText b.heading
  let startDate := (extractFirstDate heading).getD now
  blockRows startDate b.dishRows b.dayNodes none

/-- All week-containers in order; an exception in any container aborts the
whole extraction. -/
def parseBlocks (now : CivilDate) : List Block → Except String (List DayMenu)
  | [] => .ok []
  | b :: bs =>
    match parseBlock now b with
    | .error e => .error e
    | .ok days =>
      match parseBlocks now bs with
      | .error e => .error e
      | .ok rest => .ok (days ++ rest)

/-- `parseMenuPage(html)`. -/
def parseMenuPage (doc : PageDoc) (now : CivilDate) : Except String ParsedMenu :=
  if doc.blocks.isEmpty then
    .error "Could not locate speiseplan container in page."
  else
    match parseBlocks now doc.blocks with
    | .error e => .error e
    | .ok days => .ok ⟨days, parseLegend doc.legendCols⟩

/-- C2: the claim says a day/dish count mismatch is recoverable (extraction
proceeds over the shorter count with only a warning).  The code's row loop
runs over the dish-row count: with one day label and two dish rows, the
second iteration reads `$(dayNodes[1]).text() = ""` and `resolveDayDate`
throws, aborting the whole extraction right after the mismatch warning was
printed.  Here the document has a week-container and every one of its day
labels is parseable, yet `parseMenuPage` fails fatally. -/
theorem parseMenuPage_mismatch_aborts :
    (∀ b ∈ ([⟨"Speiseplan ab 06.10.2025", ["07.10."], [[], []]⟩] : List Block),
      ∀ l ∈ b.dayNodes, (findDDMM (cleanText l)).isSome = true) ∧
    ([⟨"Speiseplan ab 06.10.2025", ["07.10."], [[], []]⟩] : List Block) ≠ [] ∧
    (∀ b ∈ ([⟨"Speiseplan ab 06.10.2025", ["07.10."], [[], []]⟩] : List Block),
      b.dayNodes.length ≠ b.dishRows.length) ∧
    parseMenuPage ⟨[⟨"Speiseplan ab 06.10.2025", ["07.10."], [[], []]⟩], none⟩
        ⟨2025, 10, 6⟩ =
      .error "Unable to parse day label \"\"." := by decide

/-- `resolveDayDate` throws exactly when the label has no `DD.MM.` match. -/
theorem resolveDayDate_error_iff (label : String) (startDate : CivilDate)
    (previous : Option CivilDate) :
    (∃ e, resolveDayDate label startDate previous = .error e) ↔
      findDDMM label = none := by
  rcases hf : findDDMM label with _ | ⟨d, m⟩
  · exact ⟨fun _ => rfl, fun _ =>
      ⟨"Unable to parse day label \"" ++ label ++ "\".",
        by simp only [resolveDayDate, hf]⟩⟩
  · constructor
    · rintro ⟨e, he⟩
      cases previous <;>
        simp only [resolveDayDate, hf] at he <;> split_ifs at he
    · intro h
      simp at h

theorem getD_zero_headD (l : List String) : l.getD 0 "" = l.headD "" := by
  cases l <;> rfl

theorem getD_tail_succ (l : List String) (i : Nat) :
    l.tail.getD i "" = l.getD (i + 1) "" := by
  cases l <;> rfl

/-- The row loop throws exactly when some dish-row index reads a day label
(empty once the labels run out) with no parseable day/month. -/
theorem blockRows_error_iff (startDate : CivilDate) :
    ∀ (rows : List (List (List DishNode))) (nodes : List String)
      (previous : Option CivilDate),
    (∃ e, blockRows startDate rows nodes previous = .error e) ↔
      ∃ i < rows.length, findDDMM (cleanText (nodes.getD i "")) = none := by
  intro rows
  induction rows with
  | nil =>
      intro nodes previous
      simp [blockRows]
  | cons row rows ih =>
      intro nodes previous
      rcases hp : findDDMM (cleanText (nodes.headD "")) with _ | ⟨d, m⟩
      · constructor
        · intro _
          exact ⟨0, by simp, by rw [getD_zero_headD]; exact hp⟩
        · intro _
          rcases hf : resolveDayDate (cleanText (nodes.headD "")) startDate previous
            with e | r
          · exact ⟨e, by simp only [blockRows, hf]⟩
          · exfalso
            have : findDDMM (cleanText (nodes.headD "")) ≠ none := by
              intro hc
              obtain ⟨e, he⟩ := (resolveDayDate_error_iff _ startDate previous).mpr hc
              rw [hf] at he
              cases he
            exact this hp
      · obtain ⟨r, hr⟩ : ∃ r,
            resolveDayDate (cleanText (nodes.headD "")) startDate previous = .ok r := by
          rcases hf : resolveDayDate (cleanText (nodes.headD "")) startDate previous
            with e | r
          · obtain he := (resolveDayDate_error_iff _ startDate previous).mp ⟨e, hf⟩
            rw [hp] at he
            cases he
          · exact ⟨r, rfl⟩
        have hstep : (∃ e, blockRows startDate (row :: rows) nodes previous = .error e) ↔
            ∃ e, blockRows startDate rows nodes.tail (some r) = .error e := by
          simp only [blockRows, hr]
          rcases hrec : blockRows startDate rows nodes.tail (some r) with e | ds <;> simp
        rw [hstep, ih nodes.tail (some r)]
        constructor
        · rintro ⟨i, hi, hb⟩
          exact ⟨i + 1, by simpa using Nat.succ_lt_succ hi,
            by rw [← getD_tail_succ]; exact hb⟩
        · rintro ⟨i, hi, hb⟩
          cases i with
          | zero =>
              rw [getD_zero_headD] at hb
              rw [hp] at hb
              cases hb
          | succ j =>
              exact ⟨j, by rw [List.length_cons] at hi; omega,
                by rw [getD_tail_succ]; exact hb⟩

/-- Extraction over all containers throws exactly when some container's row
loop does. -/
theorem parseBlocks_error_iff (now : CivilDate) :
    ∀ (blocks : List Block),
    (∃ e, parseBlocks now blocks = .error e) ↔
      ∃ b ∈ blocks, ∃ i < b.dishRows.length,
        findDDMM (cleanText (b.dayNodes.getD i "")) = none := by
  intro blocks
  induction blocks with
  | nil => simp [parseBlocks]
  | cons b bs ih =>
      by_cases hb : ∃ e, parseBlock now b = .error e
      · obtain ⟨e, he⟩ := hb
        constructor
        · intro _
          have := (blockRows_error_iff _ b.dishRows b.dayNodes none).mp ⟨e, he⟩
          exact ⟨b, by simp, this⟩
        · intro _
          exact ⟨e, by simp only [parseBlocks, he]⟩
      · rcases hf : parseBlock now b with e | days
        · exact absurd ⟨e, hf⟩ hb
        · have hstep : (∃ e, parseBlocks now (b :: bs) = .error e) ↔
              ∃ e, parseBlocks now bs = .error e := by
            simp only [parseBlocks, hf]
            rcases hrec : parseBlocks now bs with e | ds <;> simp
          rw [hstep, ih]
          constructor
          · rintro ⟨c, hc, hi⟩
            exact ⟨c, by simp [hc], hi⟩
          · rintro ⟨c, hc, hi⟩
            rcases List.mem_cons.mp hc with rfl | hc'
            · exact absurd ((blockRows_error_iff _ c.dishRows c.dayNodes none).mpr hi) hb
            · exact ⟨c, hc', hi⟩

/-- C6: `parseMenuPage` fails fatally exactly when the document has no
week-container, or some processed day label (the label text read at a
dish-row index, the empty string when the day-label elements are exhausted)
has no parseable day/month; the failure condition involves neither the
legend nor any price or allergen field, so their absence never aborts. -/
theorem parseMenuPage_fatal_iff (doc : PageDoc) (now : CivilDate) :
    (∃ e, parseMenuPage doc now = .error e) ↔
      (doc.blocks = [] ∨ ∃ b ∈ doc.blocks, ∃ i < b.dishRows.length,
        findDDMM (cleanText (b.dayNodes.getD i "")) = none) := by
  by_cases hempty : doc.blocks.isEmpty
  · rw [List.isEmpty_iff] at hempty
    constructor
    · intro _
      exact Or.inl hempty
    · intro _
      exact ⟨"Could not locate speiseplan container in page.",
        by simp [parseMenuPage, hempty]⟩
  · have hne : ¬doc.blocks = [] := by
      intro hc
      rw [hc] at hempty
      exact hempty rfl
    have hstep : (∃ e, parseMenuPage doc now = .error e) ↔
        ∃ e, parseBlocks now doc.blocks = .error e := by
      simp only [parseMenuPage, hempty, if_false, Bool.false_eq_true]
      rcases hrec : parseBlocks now doc.blocks with e | ds <;> simp
    rw [hstep, parseBlocks_error_iff]
    constructor
    · exact Or.inr
    · rintro (hc | hc)
      · exact absurd hc hne
      · exact hc

/-!
String comparison.  JavaScript compares strings (`<`, default `sort()`,
`localeCompare` on these ASCII dates) by code units, i.e. lexicographically;
the model is a direct lexicographic comparison on the character list, which
is kernel-computable.
-/

/-- Lexicographic strict order on character lists. -/
def strLtB : List Char → List Char → Bool
  | [], [] => false
  | [], _ :: _ => true
  | _ :: _, [] => false
  | a :: as, b :: bs => if a < b then true else if b < a then false else strLtB as bs

/-- JavaScript `a < b` on strings. -/
def strLt (a b : String) : Bool :=
  strLtB a.data b.data

/-- JavaScript `a <= b` on strings. -/
def strLe (a b : String) : Bool :=
  !strLt b a

theorem strLtB_connex : ∀ (a b : List Char),
    strLtB a b = false → strLtB b a = false → a = b := by
  intro a
  induction a with
  | nil =>
      intro b h1 _
      cases b with
      | nil => rfl
      | cons c cs => simp [strLtB] at h1
  | cons x xs ih =>
      intro b h1 h2
      cases b with
      | nil => simp [strLtB] at h2
      | cons y ys =>
          simp only [strLtB] at h1 h2
          rcases lt_trichotomy x y with hc | hc | hc
          · rw [if_pos hc] at h1
            cases h1
          · subst hc
            rw [if_neg (lt_irrefl x), if_neg (lt_irrefl x)] at h1 h2
            rw [ih ys h1 h2]
          · rw [if_pos hc] at h2
            cases h2

theorem strLtB_trans : ∀ (a b c : List Char),
    strLtB a b = true → strLtB b c = true → strLtB a c = true := by
  intro a
  induction a with
  | nil =>
      intro b c h1 h2
      cases b with
      | nil => simp [strLtB] at h1
      | cons y ys =>
          cases c with
          | nil => simp [strLtB] at h2
          | cons z zs => simp [strLtB]
  | cons x xs ih =>
      intro b c h1 h2
      cases b with
      | nil => simp [strLtB] at h1
      | cons y ys =>
          cases c with
          | nil => simp [strLtB] at h2
          | cons z zs =>
              simp only [strLtB] at h1 h2 ⊢
              rcases lt_trichotomy x y with hxy | hxy | hxy
              · rcases lt_trichotomy y z with hyz | hyz | hyz
                · rw [if_pos (lt_trans hxy hyz)]
                · subst hyz
                  rw [if_pos hxy]
                · rw [if_neg (lt_asymm hyz), if_pos hyz] at h2
                  cases h2
              · subst hxy
                rw [if_neg (lt_irrefl x), if_neg (lt_irrefl x)] at h1
                rcases lt_trichotomy x z with hxz | hxz | hxz
                · rw [if_pos hxz]
                · subst hxz
                  rw [if_neg (lt_irrefl x), if_neg (lt_irrefl x)] at h2 ⊢
                  exact ih ys zs h1 h2
                · rw [if_neg (lt_asymm hxz), if_pos hxz] at h2
                  cases h2
              · rw [if_neg (lt_asymm hxy), if_pos hxy] at h1
                cases h1

theorem strLtB_irrefl : ∀ l : List Char, strLtB l l = false := by
  intro l
  induction l with
  | nil => rfl
  | cons x xs ih =>
      simp only [strLtB]
      rw [if_neg (lt_irrefl x), if_neg (lt_irrefl x)]
      exact ih

theorem strLe_total (a b : String) : strLe a b = true ∨ strLe b a = true := by
  unfold strLe strLt
  rcases h1 : strLtB b.data a.data with _ | _
  · left
    simp
  · right
    rcases h2 : strLtB a.data b.data with _ | _
    · simp
    · have := strLtB_trans _ _ _ h1 h2
      rw [strLtB_irrefl] at this
      cases this

theorem strLe_trans (a b c : String) (h1 : strLe a b = true) (h2 : strLe b c = true) :
    strLe a c = true := by
  unfold strLe strLt at *
  by_contra hc
  have h3 : strLtB c.data a.data = true := by
    revert hc
    cases strLtB c.data a.data <;> simp
  have hba : strLtB b.data a.data = false := by
    revert h1
    cases strLtB b.data a.data <;> simp
  have hcb : strLtB c.data b.data = false := by
    revert h2
    cases strLtB c.data b.data <;> simp
  rcases hab : strLtB a.data b.data with _ | _
  · have hac := strLtB_connex a.data b.data hab hba
    rw [hac] at h3
    simp [h3] at hcb
  · have := strLtB_trans c.data a.data b.data h3 hab
    simp [this] at hcb

theorem strLe_antisymm (a b : String) (h1 : strLe a b = true) (h2 : strLe b a = true) :
    a = b := by
  unfold strLe strLt at h1 h2
  have hba : strLtB b.data a.data = false := by
    revert h1
    cases strLtB b.data a.data <;> simp
  have hab : strLtB a.data b.data = false := by
    revert h2
    cases strLtB a.data b.data <;> simp
  have hd := strLtB_connex a.data b.data hab hba
  cases a
  cases b
  exact congrArg String.mk hd

instance : IsTotal String (fun a b => strLe a b = true) := ⟨strLe_total⟩

instance : IsTrans String (fun a b => strLe a b = true) := ⟨strLe_trans⟩

/-!
Decimal rendering facts: `natToString` is injective (via the parse-back
round trip), and the two-digit padding used by `weekKey` is injective on the
week range, giving injectivity of the week key.
-/

/-- Parse a digit string back to its value. -/
def parseDigits (cs : List Char) : Nat :=
  cs.foldl (fun a c => 10 * a + (c.toNat - 48)) 0

theorem parseDigits_append (cs : List Char) (c : Char) :
    parseDigits (cs ++ [c]) = 10 * parseDigits cs + (c.toNat - 48) := by
  unfold parseDigits
  rw [List.foldl_append]
  rfl

theorem digitChar_toNat : ∀ n : Nat, n < 10 → (Nat.digitChar n).toNat = n + 48 := by
  decide

theorem parseDigits_natToCharsAux :
    ∀ (fuel n : Nat), n < fuel → parseDigits (natToCharsAux fuel n) = n := by
  intro fuel
  induction fuel with
  | zero => omega
  | succ f ih =>
      intro n hn
      unfold natToCharsAux
      split_ifs with h10
      · unfold parseDigits
        simp [digitChar_toNat n h10]
      · rw [parseDigits_append, ih (n / 10) (by omega)]
        rw [digitChar_toNat (n % 10) (by omega)]
        omega

theorem natToString_inj (a b : Nat) (h : natToString a = natToString b) : a = b := by
  unfold natToString at h
  have hd : natToCharsAux (a + 1) a = natToCharsAux (b + 1) b := by
    have := congrArg String.data h
    simpa using this
  have ha := parseDigits_natToCharsAux (a + 1) a (by omega)
  have hb := parseDigits_natToCharsAux (b + 1) b (by omega)
  rw [hd] at ha
  rw [ha] at hb
  exact hb

set_option maxRecDepth 10000 in
theorem natToString_len_le2 : ∀ n : Nat, n < 100 → (natToString n).data.length ≤ 2 := by
  decide

set_option maxRecDepth 10000 in
theorem padWeek_inj : ∀ a : Nat, a < 100 → ∀ b : Nat, b < 100 →
    padZero 2 (natToString a) = padZero 2 (natToString b) → a = b := by
  decide

theorem padZero2_len (s : String) (h : s.data.length ≤ 2) :
    (padZero 2 s).data.length = 2 := by
  unfold padZero
  split_ifs with hlt
  · simp only [List.length_append, List.length_replicate]
    omega
  · omega

/-- `weekKey(year, week)`: the template
`year + "-W" + String(week).padStart(2, "0")`. -/
def weekKey (year week : Int) : String :=
  intToString year ++ "-W" ++ padZero 2 (intToString week)

/-- On non-negative years and two-digit week numbers (all that `isoWeek`
produces for the scraper's dates), `weekKey` is injective. -/
theorem weekKey_inj (y1 w1 y2 w2 : Int) (hy1 : 0 ≤ y1) (hy2 : 0 ≤ y2)
    (hw1 : 0 ≤ w1) (hw1b : w1 < 100) (hw2 : 0 ≤ w2) (hw2b : w2 < 100)
    (h : weekKey y1 w1 = weekKey y2 w2) : y1 = y2 ∧ w1 = w2 := by
  unfold weekKey intToString at h
  rw [if_neg (show ¬y1 < 0 by omega), if_neg (show ¬w1 < 0 by omega),
    if_neg (show ¬y2 < 0 by omega), if_neg (show ¬w2 < 0 by omega)] at h
  have hd := congrArg String.data h
  simp only [String.data_append] at hd
  rw [List.append_assoc, List.append_assoc] at hd
  have hl1 : (natToString w1.toNat).data.length ≤ 2 :=
    natToString_len_le2 w1.toNat (by omega)
  have hl2 : (natToString w2.toNat).data.length ≤ 2 :=
    natToString_len_le2 w2.toNat (by omega)
  have hlen : ("-W".data ++ (padZero 2 (natToString w1.toNat)).data).length =
      ("-W".data ++ (padZero 2 (natToString w2.toNat)).data).length := by
    simp only [List.length_append, padZero2_len _ hl1, padZero2_len _ hl2]
  obtain ⟨hpre, hsuf⟩ := List.append_inj' hd hlen
  constructor
  · have hts : natToString y1.toNat = natToString y2.toNat := by
      have := congrArg String.mk hpre
      simpa using this
    have := natToString_inj _ _ hts
    omega
  · have hps : (padZero 2 (natToString w1.toNat)).data =
        (padZero 2 (natToString w2.toNat)).data :=
      List.append_cancel_left hsuf
    have hps' : padZero 2 (natToString w1.toNat) = padZero 2 (natToString w2.toNat) := by
      have := congrArg String.mk hps
      simpa using this
    have := padWeek_inj w1.toNat (by omega) w2.toNat (by omega) hps'
    omega

/-!
Week partitioning (`groupByWeek`, claim C7).  `DayMenu.date` strings are
parsed back with `new Date(date + "T00:00:00Z")`; the model parses exactly
the valid fixed-width `YYYY-MM-DD` shape (V8 rejects out-of-calendar ISO
strings), and stands in `(0, 0)` with key `"NaN-WNaN"` for the `NaN`
week/year a malformed date would produce in JavaScript — a branch that is
unreachable under the data-model invariant that `date` is an absolute
calendar date, which every theorem below assumes.
-/

/-- Calendar-range check of parsed ISO components (V8 rejects
out-of-calendar ISO date strings as `Invalid Date`). -/
def mkIsoDate (y mo da : Nat) : Option CivilDate :=
  if 1 ≤ (mo : Int) ∧ (mo : Int) ≤ 12 ∧ 1 ≤ (da : Int) ∧
      (da : Int) ≤ monthLen (isLeap (y : Int)) (mo : Int) then
    some ⟨(y : Int), (mo : Int), (da : Int)⟩
  else none

/-- Parse a `YYYY-MM-DD` string to a civil date. -/
def parseIsoDate (s : String) : Option CivilDate :=
  match s.data with
  | [y1, y2, y3, y4, h1, m1, m2, h2, d1, d2] =>
    if y1.isDigit && y2.isDigit && y3.isDigit && y4.isDigit && h1 == '-'
        && m1.isDigit && m2.isDigit && h2 == '-' && d1.isDigit && d2.isDigit then
      mkIsoDate (100 * digits2 y1 y2 + digits2 y3 y4) (digits2 m1 m2) (digits2 d1 d2)
    else none
  | _ => none

/-- A `DayMenu.date` that is a well-formed calendar date with a positive
year, the shape `formatIsoDate` emits for every date the scraper resolves. -/
def validDayDate (s : String) : Bool :=
  match parseIsoDate s with
  | some d => decide (1 ≤ d.year)
  | none => false

/-- The (isoYear, isoWeek) pair of a date string, `(0, 0)` standing in for
the JavaScript `NaN` pair of an unparseable date. -/
def dayWeekPair (s : String) : Int × Int :=
  match parseIsoDate s with
  | some d => isoWeek d
  | none => (0, 0)

/-- The week key of a date string, `"NaN-WNaN"` for an unparseable date. -/
def dayKey (s : String) : String :=
  match parseIsoDate s with
  | some d => weekKey (isoWeek d).1 (isoWeek d).2
  | none => "NaN-WNaN"

structure WeekPartition where
  isoYear : Int
  isoWeek : Int
  fromDate : String
  toDate : String
  days : List DayMenu
deriving DecidableEq, Repr

/-- Net effect of one loop iteration of `groupByWeek` on the insertion-
ordered association list modelling the `Map`: a fresh key appends an entry
whose range and day list come from the day itself (the code creates the
entry with an empty `days` and immediately pushes), an existing key pushes
the day and widens the `from`/`to` range. -/
def insertDay : List (String × WeekPartition) → DayMenu →
    List (String × WeekPartition)
  | [], day =>
    [(dayKey day.date,
      ⟨(dayWeekPair day.date).1, (dayWeekPair day.date).2, day.date, day.date, [day]⟩)]
  | (k, p) :: rest, day =>
    if k = dayKey day.date then
      (k, ⟨p.isoYear, p.isoWeek,
        if strLt day.date p.fromDate then day.date else p.fromDate,
        if strLt p.toDate day.date then day.date else p.toDate,
        p.days ++ [day]⟩) :: rest
    else (k, p) :: insertDay rest day

/-- The per-day ordering of the partition sort, `localeCompare` on the
fixed-width ASCII date strings being code-unit comparison. -/
def dayLe (a b : DayMenu) : Prop :=
  strLe a.date b.date = true

instance : DecidableRel dayLe := fun a b =>
  inferInstanceAs (Decidable (strLe a.date b.date = true))

instance : IsTotal DayMenu dayLe :=
  ⟨fun a b => strLe_total a.date b.date⟩

instance : IsTrans DayMenu dayLe :=
  ⟨fun _ _ _ h1 h2 => strLe_trans _ _ _ h1 h2⟩

/-- The partition ordering of the final comparator: ascending isoYear, then
ascending isoWeek. -/
def partLe (p q : WeekPartition) : Prop :=
  p.isoYear < q.isoYear ∨ (p.isoYear = q.isoYear ∧ p.isoWeek ≤ q.isoWeek)

instance : DecidableRel partLe := fun p q =>
  inferInstanceAs (Decidable (p.isoYear < q.isoYear ∨
    (p.isoYear = q.isoYear ∧ p.isoWeek ≤ q.isoWeek)))

instance : IsTotal WeekPartition partLe := by
  constructor
  intro a b
  unfold partLe
  omega

instance : IsTrans WeekPartition partLe := by
  constructor
  intro a b c h1 h2
  unfold partLe at *
  omega

/-- `groupByWeek(days)`: bucket the days by week key, sort each partition's
days by date, and sort the partitions by (isoYear, isoWeek).  `Array.sort`
is modelled by a stable sort. -/
def groupByWeek (days : List DayMenu) : List WeekPartition :=
  let acc := days.foldl insertDay []
  List.insertionSort partLe
    (acc.map fun kp =>
      ⟨kp.2.isoYear, kp.2.isoWeek, kp.2.fromDate, kp.2.toDate,
        List.insertionSort dayLe kp.2.days⟩)

theorem monthLen_le31 (leap : Bool) (m : Int) : monthLen leap m ≤ 31 := by
  unfold monthLen
  split_ifs <;> omega

theorem weekdayJS_range (d : CivilDate) : 0 ≤ weekdayJS d ∧ weekdayJS d < 7 :=
  ⟨Int.emod_nonneg _ (by norm_num), Int.emod_lt_of_pos _ (by norm_num)⟩

/-- `Date.UTC` on an in-range month and a day shifted by at most a week
stays valid and moves the year by at most one. -/
theorem dateUTC_shift_spec (y m dd : Int) (hm1 : 1 ≤ m) (hm2 : m ≤ 12)
    (hd1 : -2 ≤ dd) (hd2 : dd ≤ 34) :
    (dateUTC y (m - 1) dd).IsValid ∧ y - 1 ≤ (dateUTC y (m - 1) dd).year ∧
      (dateUTC y (m - 1) dd).year ≤ y + 1 := by
  have hdiv : (m - 1) / 12 = 0 := by omega
  have hmod : (m - 1) % 12 = m - 1 := by omega
  have hoff := monthOffset_bounds (isLeap y) m hm1 hm2
  unfold dateUTC
  rw [hdiv, hmod, add_zero, sub_add_cancel]
  set o := monthOffset (isLeap y) m + (dd - 1) with ho
  have hno := normYearDoy_spec y o (by split_ifs at hoff <;> omega)
    (by split_ifs at hoff <;> omega)
  have hb : (normYearDoy y o).2 < if isLeap (normYearDoy y o).1 then 366 else 365 := by
    have h1 := hno.2.1
    unfold yearLen at h1
    exact h1
  have hmfd := monthFromDoy_spec (isLeap (normYearDoy y o).1) (normYearDoy y o).2
    hno.1 hb
  refine ⟨?_, hno.2.2.1, hno.2.2.2.2.1 (by split_ifs at hoff <;> omega)⟩
  unfold mkFromDoy CivilDate.IsValid
  exact ⟨hmfd.1, hmfd.2.1, hmfd.2.2.1, hmfd.2.2.2.1⟩

theorem dayNumber_jan1 (y : Int) : dayNumber ⟨y, 1, 1⟩ = dayFromYear y := by
  unfold dayNumber doy0 monthOffset
  norm_num

/-- For a valid date with a positive year, the ISO year is non-negative and
the ISO week lies in 1..53; in particular both are in the ranges on which
`weekKey` is injective. -/
theorem isoWeek_bounds (d : CivilDate) (hval : d.IsValid) (hy1 : 1 ≤ d.year) :
    0 ≤ (isoWeek d).1 ∧ 1 ≤ (isoWeek d).2 ∧ (isoWeek d).2 < 100 := by
  obtain ⟨hm1, hm2, hd1, hd4⟩ := hval
  have hd31 : d.day ≤ 31 := le_trans hd4 (monthLen_le31 _ _)
  have hw := weekdayJS_range d
  unfold isoWeek
  simp only []
  set dayNum := if weekdayJS d = 0 then 7 else weekdayJS d with hdn
  have hdnb : 1 ≤ dayNum ∧ dayNum ≤ 7 := by
    rw [hdn]
    split_ifs <;> omega
  have hshift := dateUTC_shift_spec d.year d.month (d.day + 4 - dayNum) hm1 hm2
    (by omega) (by omega)
  set thu := dateUTC d.year (d.month - 1) (d.day + 4 - dayNum) with hthu
  have hdoy := doy0_bounds thu hshift.1
  have hyl := yearLen_le thu.year
  have hdiff : dayNumber thu - dayNumber ⟨thu.year, 1, 1⟩ = doy0 thu := by
    rw [dayNumber_jan1]
    unfold dayNumber
    omega
  rw [hdiff]
  refine ⟨by omega, ?_, ?_⟩ <;> omega

/-- Inserting a day whose key is already present keeps the key list. -/
theorem insertDay_keys_mem (day : DayMenu) :
    ∀ acc : List (String × WeekPartition), dayKey day.date ∈ acc.map Prod.fst →
    (insertDay acc day).map Prod.fst = acc.map Prod.fst := by
  intro acc
  induction acc with
  | nil => intro h; simp at h
  | cons kp rest ih =>
      obtain ⟨k, p⟩ := kp
      intro h
      by_cases hk : k = dayKey day.date
      · simp only [insertDay, if_pos hk]
        simp
      · simp only [insertDay, if_neg hk]
        rw [List.map_cons] at h ⊢
        rcases List.mem_cons.mp h with he | he
        · exact absurd he.symm hk
        · rw [List.map_cons, ih he]

/-- Inserting a day with a fresh key appends the fresh entry at the end. -/
theorem insertDay_fresh (day : DayMenu) :
    ∀ acc : List (String × WeekPartition), dayKey day.date ∉ acc.map Prod.fst →
    insertDay acc day = acc ++
      [(dayKey day.date,
        ⟨(dayWeekPair day.date).1, (dayWeekPair day.date).2,
          day.date, day.date, [day]⟩)] := by
  intro acc
  induction acc with
  | nil => intro _; rfl
  | cons kp rest ih =>
      obtain ⟨k, p⟩ := kp
      intro h
      simp only [List.map_cons, List.mem_cons] at h
      push_neg at h
      simp only [insertDay]
      rw [if_neg (fun hc => h.1 hc.symm)]
      rw [ih h.2]
      simp

theorem strLe_refl (a : String) : strLe a a = true := by
  unfold strLe strLt
  rw [strLtB_irrefl]
  rfl

theorem strLt_asymm (a b : String) (h : strLt a b = true) : strLt b a = false := by
  unfold strLt at *
  rcases hr : strLtB b.data a.data with _ | _
  · rfl
  · have := strLtB_trans _ _ _ h hr
    rw [strLtB_irrefl] at this
    cases this

theorem strLe_of_lt (a b : String) (h : strLt a b = true) : strLe a b = true := by
  unfold strLe
  rw [strLt_asymm a b h]
  rfl

theorem strLe_of_not_lt (x y : String) (h : strLt y x = false) : strLe x y = true := by
  unfold strLe
  rw [h]
  rfl

/-- The facts `groupByWeek`'s loop maintains for every map entry: its
(isoYear, isoWeek) pair comes from one of the processed days whose key it
carries, its day list is exactly the processed days with its key in source
order, and its `from`/`to` are attained members bounding every day. -/
def EntryInv (processed : List DayMenu) (e : String × WeekPartition) : Prop :=
  (∃ d ∈ processed, e.1 = dayKey d.date ∧
    (e.2.isoYear, e.2.isoWeek) = dayWeekPair d.date) ∧
  e.2.days = processed.filter (fun d => decide (dayKey d.date = e.1)) ∧
  e.2.fromDate ∈ e.2.days.map DayMenu.date ∧
  e.2.toDate ∈ e.2.days.map DayMenu.date ∧
  (∀ d ∈ e.2.days, strLe e.2.fromDate d.date = true ∧ strLe d.date e.2.toDate = true)

theorem insertDay_entries (day : DayMenu) :
    ∀ (acc : List (String × WeekPartition)) (processed : List DayMenu),
    (acc.map Prod.fst).Pairwise (· ≠ ·) →
    (∀ d ∈ processed, dayKey d.date ∈ acc.map Prod.fst ∨
      dayKey d.date ≠ dayKey day.date) →
    (∀ e ∈ acc, EntryInv processed e) →
    ∀ e ∈ insertDay acc day, EntryInv (processed ++ [day]) e := by
  intro acc
  induction acc with
  | nil =>
      intro processed _ hcov _ e he
      simp only [insertDay, List.mem_singleton] at he
      subst he
      have hfil : processed.filter
          (fun d => decide (dayKey d.date = dayKey day.date)) = [] := by
        rw [List.filter_eq_nil_iff]
        intro d hd
        rcases hcov d hd with hin | hne
        · simp at hin
        · simpa using hne
      refine ⟨⟨day, List.mem_append_right _ (by simp), rfl, rfl⟩, ?_, by simp, by simp, ?_⟩
      · rw [List.filter_append, hfil]
        simp
      · intro d hd
        simp only [List.mem_singleton] at hd
        subst hd
        exact ⟨strLe_refl _, strLe_refl _⟩
  | cons kp rest ih =>
      obtain ⟨k, p⟩ := kp
      intro processed hpw hcov hold e he
      rw [List.map_cons] at hpw
      have hpw' := List.pairwise_cons.mp hpw
      by_cases hk : k = dayKey day.date
      · simp only [insertDay, if_pos hk] at he
        rcases List.mem_cons.mp he with rfl | he'
        · obtain ⟨⟨d0, hd0, hk0, hpair⟩, hdays, hfrom, hto, hbnd⟩ :=
            hold (k, p) (by simp)
          refine ⟨⟨d0, List.mem_append_left _ hd0, hk0, hpair⟩, ?_, ?_, ?_, ?_⟩
          · show p.days ++ [day] = _
            rw [List.filter_append, ← hdays]
            congr 1
            simp only [List.filter]
            rw [show decide (dayKey day.date = k) = true from by simp [hk]]
          · show (if strLt day.date p.fromDate then day.date else p.fromDate) ∈
              (p.days ++ [day]).map DayMenu.date
            rw [List.map_append]
            split_ifs
            · exact List.mem_append_right _ (by simp)
            · exact List.mem_append_left _ hfrom
          · show (if strLt p.toDate day.date then day.date else p.toDate) ∈
              (p.days ++ [day]).map DayMenu.date
            rw [List.map_append]
            split_ifs
            · exact List.mem_append_right _ (by simp)
            · exact List.mem_append_left _ hto
          · intro d hd
            rcases List.mem_append.mp hd with hd' | hd'
            · obtain ⟨hb1, hb2⟩ := hbnd d hd'
              constructor
              · show strLe (if strLt day.date p.fromDate then day.date else p.fromDate)
                  d.date = true
                split_ifs with hc
                · exact strLe_trans _ _ _ (strLe_of_lt _ _ hc) hb1
                · exact hb1
              · show strLe d.date
                  (if strLt p.toDate day.date then day.date else p.toDate) = true
                split_ifs with hc
                · exact strLe_trans _ _ _ hb2 (strLe_of_lt _ _ hc)
                · exact hb2
            · simp only [List.mem_singleton] at hd'
              subst hd'
              constructor
              · show strLe (if strLt d.date p.fromDate then d.date else p.fromDate)
                  d.date = true
                split_ifs with hc
                · exact strLe_refl _
                · exact strLe_of_not_lt _ _
                    (by revert hc; cases strLt d.date p.fromDate <;> simp)
              · show strLe d.date
                  (if strLt p.toDate d.date then d.date else p.toDate) = true
                split_ifs with hc
                · exact strLe_refl _
                · exact strLe_of_not_lt _ _
                    (by revert hc; cases strLt p.toDate d.date <;> simp)
        · obtain ⟨⟨d0, hd0, hk0, hpair⟩, hdays, hfrom, hto, hbnd⟩ := hold e (by simp [he'])
          have hkey : e.1 ≠ dayKey day.date := by
            intro hc
            have : k ≠ e.1 := hpw'.1 e.1 (List.mem_map_of_mem Prod.fst he')
            exact this (hk.trans hc.symm)
          refine ⟨⟨d0, List.mem_append_left _ hd0, hk0, hpair⟩, ?_, hfrom, hto, hbnd⟩
          rw [List.filter_append, ← hdays]
          have : List.filter (fun d => decide (dayKey d.date = e.1)) [day] = [] := by
            simp only [List.filter]
            rw [decide_eq_false (fun hc => hkey hc.symm)]
          rw [this, List.append_nil]
      · simp only [insertDay, if_neg hk] at he
        rcases List.mem_cons.mp he with rfl | he'
        · obtain ⟨⟨d0, hd0, hk0, hpair⟩, hdays, hfrom, hto, hbnd⟩ :=
            hold (k, p) (by simp)
          refine ⟨⟨d0, List.mem_append_left _ hd0, hk0, hpair⟩, ?_, hfrom, hto, hbnd⟩
          rw [List.filter_append, ← hdays]
          have : List.filter (fun d => decide (dayKey d.date = (k, p).1)) [day] = [] := by
            simp only [List.filter]
            rw [decide_eq_false (show ¬dayKey day.date = (k, p).1 from
              fun hc => hk (by simpa using hc.symm))]
          rw [this, List.append_nil]
        · refine ih processed hpw'.2 ?_ (fun x hx => hold x (by simp [hx])) e he'
          intro d hd
          rcases hcov d hd with hin | hne
          · rw [List.map_cons] at hin
            rcases List.mem_cons.mp hin with heq | hin'
            · right
              rw [heq]
              exact fun hc => hk (by simpa using hc)
            · exact Or.inl hin'
          · exact Or.inr hne

/-- The full loop invariant of `groupByWeek`: distinct keys, key coverage of
the processed days, and the per-entry facts. -/
def GroupInv (processed : List DayMenu) (acc : List (String × WeekPartition)) : Prop :=
  (acc.map Prod.fst).Pairwise (· ≠ ·) ∧
  (∀ d ∈ processed, dayKey d.date ∈ acc.map Prod.fst) ∧
  (∀ e ∈ acc, EntryInv processed e)

theorem insertDay_inv (processed : List DayMenu) (day : DayMenu)
    (acc : List (String × WeekPartition)) (h : GroupInv processed acc) :
    GroupInv (processed ++ [day]) (insertDay acc day) := by
  obtain ⟨hpw, hcov, hent⟩ := h
  by_cases hmem : dayKey day.date ∈ acc.map Prod.fst
  · refine ⟨?_, ?_, ?_⟩
    · rw [insertDay_keys_mem day acc hmem]
      exact hpw
    · intro d hd
      rw [insertDay_keys_mem day acc hmem]
      rcases List.mem_append.mp hd with hd' | hd'
      · exact hcov d hd'
      · simp only [List.mem_singleton] at hd'
        subst hd'
        exact hmem
    · exact insertDay_entries day acc processed hpw
        (fun d hd => Or.inl (hcov d hd)) hent
  · refine ⟨?_, ?_, ?_⟩
    · rw [insertDay_fresh day acc hmem, List.map_append]
      rw [List.pairwise_append]
      refine ⟨hpw, by simp, ?_⟩
      intro a ha b hb
      simp only [List.map_cons, List.map_nil, List.mem_singleton] at hb
      subst hb
      exact fun hc => hmem (hc ▸ ha)
    · intro d hd
      rw [insertDay_fresh day acc hmem, List.map_append]
      rcases List.mem_append.mp hd with hd' | hd'
      · exact List.mem_append_left _ (hcov d hd')
      · simp only [List.mem_singleton] at hd'
        subst hd'
        exact List.mem_append_right _ (by simp)
    · exact insertDay_entries day acc processed hpw
        (fun d hd => Or.inl (hcov d hd)) hent

theorem foldl_insertDay_inv :
    ∀ (ds : List DayMenu) (processed : List DayMenu)
      (acc : List (String × WeekPartition)), GroupInv processed acc →
    GroupInv (processed ++ ds) (ds.foldl insertDay acc) := by
  intro ds
  induction ds with
  | nil =>
      intro processed acc h
      simpa using h
  | cons d rest ih =>
      intro processed acc h
      have h1 := insertDay_inv processed d acc h
      have h2 := ih (processed ++ [d]) (insertDay acc d) h1
      rw [List.append_assoc] at h2
      simpa using h2

theorem groupInv_final (days : List DayMenu) :
    GroupInv days (days.foldl insertDay []) := by
  have := foldl_insertDay_inv days [] [] ⟨by simp, by simp, by simp⟩
  simpa using this

theorem mkIsoDate_isValid (y mo da : Nat) (c : CivilDate)
    (hp : mkIsoDate y mo da = some c) : c.IsValid ∧ 0 ≤ c.year := by
  unfold mkIsoDate at hp
  split_ifs at hp with h1
  have hc : _ = c := Option.some.inj hp
  subst hc
  refine ⟨⟨h1.1, h1.2.1, h1.2.2.1, h1.2.2.2⟩, ?_⟩
  exact Int.natCast_nonneg _

theorem parseIsoDate_isValid (s : String) (c : CivilDate)
    (hp : parseIsoDate s = some c) : c.IsValid ∧ 0 ≤ c.year := by
  unfold parseIsoDate at hp
  split at hp
  · split_ifs at hp with h1
    exact mkIsoDate_isValid _ _ _ c hp
  · cases hp

/-- A valid day date parses to a valid civil date with a positive year. -/
theorem validDayDate_spec (s : String) (h : validDayDate s = true) :
    ∃ c, parseIsoDate s = some c ∧ c.IsValid ∧ 1 ≤ c.year := by
  unfold validDayDate at h
  rcases hp : parseIsoDate s with _ | c
  · rw [hp] at h
    cases h
  · rw [hp] at h
    have h1 := of_decide_eq_true h
    exact ⟨c, rfl, (parseIsoDate_isValid s c hp).1, h1⟩

/-- C7: on day lists whose dates are valid calendar dates (the shape the
extractor always produces), `groupByWeek` partitions the days so that the
partitions carry pairwise-distinct (isoYear, isoWeek) pairs, each partition
holds exactly the input days whose date falls in its week (as a permutation,
so multiplicity is preserved), every input day lands in some partition,
each partition's days are sorted ascending by date string, `from` and `to`
are an attained lower and upper bound of its days' dates, and the partition
list is sorted ascending by (isoYear, isoWeek). -/
theorem groupByWeek_partitions (days : List DayMenu)
    (hv : ∀ d ∈ days, validDayDate d.date = true) :
    (groupByWeek days).Pairwise
      (fun p q => (p.isoYear, p.isoWeek) ≠ (q.isoYear, q.isoWeek)) ∧
    (∀ p ∈ groupByWeek days, p.days.Perm (days.filter
      (fun d => decide (dayWeekPair d.date = (p.isoYear, p.isoWeek))))) ∧
    (∀ d ∈ days, ∃ p ∈ groupByWeek days,
      dayWeekPair d.date = (p.isoYear, p.isoWeek)) ∧
    (∀ p ∈ groupByWeek days, List.Pairwise dayLe p.days) ∧
    (∀ p ∈ groupByWeek days,
      p.fromDate ∈ p.days.map DayMenu.date ∧ p.toDate ∈ p.days.map DayMenu.date ∧
      ∀ d ∈ p.days, strLe p.fromDate d.date = true ∧ strLe d.date p.toDate = true) ∧
    List.Pairwise partLe (groupByWeek days) := by
  obtain ⟨hpw, hcov, hent⟩ := groupInv_final days
  set acc := days.foldl insertDay [] with hacc
  have hkeyfmt : ∀ e ∈ acc, e.1 = weekKey e.2.isoYear e.2.isoWeek ∧
      0 ≤ e.2.isoYear ∧ 1 ≤ e.2.isoWeek ∧ e.2.isoWeek < 100 := by
    intro e he
    obtain ⟨⟨d0, hd0, hk0, hpair⟩, _⟩ := hent e he
    obtain ⟨c, hc, hcv, hcy⟩ := validDayDate_spec d0.date (hv d0 hd0)
    have hb := isoWeek_bounds c hcv hcy
    have hdp : dayWeekPair d0.date = isoWeek c := by
      unfold dayWeekPair
      rw [hc]
    have hdk : dayKey d0.date = weekKey (isoWeek c).1 (isoWeek c).2 := by
      unfold dayKey
      rw [hc]
    rw [hdp] at hpair
    have hp1 : e.2.isoYear = (isoWeek c).1 := congrArg Prod.fst hpair
    have hp2 : e.2.isoWeek = (isoWeek c).2 := congrArg Prod.snd hpair
    refine ⟨?_, by omega, by omega, by omega⟩
    rw [hk0, hdk, hp1, hp2]
  have hdaykey : ∀ d ∈ days, dayKey d.date =
      weekKey (dayWeekPair d.date).1 (dayWeekPair d.date).2 ∧
      0 ≤ (dayWeekPair d.date).1 ∧ 1 ≤ (dayWeekPair d.date).2 ∧
      (dayWeekPair d.date).2 < 100 := by
    intro d hd
    obtain ⟨c, hc, hcv, hcy⟩ := validDayDate_spec d.date (hv d hd)
    have hb := isoWeek_bounds c hcv hcy
    have hdp : dayWeekPair d.date = isoWeek c := by
      unfold dayWeekPair
      rw [hc]
    have hdk : dayKey d.date = weekKey (isoWeek c).1 (isoWeek c).2 := by
      unfold dayKey
      rw [hc]
    rw [hdp, hdk]
    exact ⟨rfl, by omega, by omega, by omega⟩
  have hpred : ∀ e ∈ acc, ∀ d ∈ days,
      decide (dayKey d.date = e.1) =
      decide (dayWeekPair d.date = (e.2.isoYear, e.2.isoWeek)) := by
    intro e he d hd
    obtain ⟨hkf, hey, hew1, hew2⟩ := hkeyfmt e he
    obtain ⟨hdk, hdy, hdw1, hdw2⟩ := hdaykey d hd
    by_cases hpp : dayWeekPair d.date = (e.2.isoYear, e.2.isoWeek)
    · have hkk : dayKey d.date = e.1 := by
        rw [hdk, hkf, hpp]
      rw [decide_eq_true hkk, decide_eq_true hpp]
    · have hkk : dayKey d.date ≠ e.1 := by
        intro hc2
        rw [hdk, hkf] at hc2
        obtain ⟨he1, he2⟩ := weekKey_inj _ _ _ _ hdy hey (by omega) hdw2
          (by omega) hew2 hc2
        exact hpp (Prod.ext he1 he2)
      rw [decide_eq_false hkk, decide_eq_false hpp]
  have hgbw : groupByWeek days = List.insertionSort partLe
      (acc.map fun kp =>
        (⟨kp.2.isoYear, kp.2.isoWeek, kp.2.fromDate, kp.2.toDate,
          List.insertionSort dayLe kp.2.days⟩ : WeekPartition)) := rfl
  set mid := acc.map (fun kp : String × WeekPartition =>
    (⟨kp.2.isoYear, kp.2.isoWeek, kp.2.fromDate, kp.2.toDate,
      List.insertionSort dayLe kp.2.days⟩ : WeekPartition)) with hmid
  have hperm : (groupByWeek days).Perm mid := by
    rw [hgbw]
    exact List.perm_insertionSort partLe mid
  have hmem : ∀ p ∈ groupByWeek days, ∃ e ∈ acc,
      p = (⟨e.2.isoYear, e.2.isoWeek, e.2.fromDate, e.2.toDate,
        List.insertionSort dayLe e.2.days⟩ : WeekPartition) := by
    intro p hp
    have hpm : p ∈ mid := (hperm.mem_iff).mp hp
    rw [hmid] at hpm
    obtain ⟨e, he, heq⟩ := List.mem_map.mp hpm
    exact ⟨e, he, heq.symm⟩
  refine ⟨?_, ?_, ?_, ?_, ?_, ?_⟩
  · have hmidpw : mid.Pairwise
        (fun p q => (p.isoYear, p.isoWeek) ≠ (q.isoYear, q.isoWeek)) := by
      rw [hmid, List.pairwise_map]
      have hpw2 : acc.Pairwise (fun e f => e.1 ≠ f.1) := List.pairwise_map.mp hpw
      refine hpw2.imp_of_mem ?_
      intro e f he hf hne hc
      obtain ⟨hkf1, _⟩ := hkeyfmt e he
      obtain ⟨hkf2, _⟩ := hkeyfmt f hf
      apply hne
      have hc1 : e.2.isoYear = f.2.isoYear := by
        have := congrArg Prod.fst hc
        simpa using this
      have hc2 : e.2.isoWeek = f.2.isoWeek := by
        have := congrArg Prod.snd hc
        simpa using this
      rw [hkf1, hkf2, hc1, hc2]
    exact ((hperm.pairwise_iff (fun h => Ne.symm h)).mpr hmidpw)
  · intro p hp
    obtain ⟨e, he, rfl⟩ := hmem p hp
    obtain ⟨_, hdays, _⟩ := hent e he
    have h2 : days.filter (fun d => decide (dayKey d.date = e.1)) =
        days.filter (fun d => decide (dayWeekPair d.date =
          (e.2.isoYear, e.2.isoWeek))) :=
      List.filter_congr (fun d hd => hpred e he d hd)
    dsimp only
    rw [← h2, ← hdays]
    exact List.perm_insertionSort _ _
  · intro d hd
    obtain ⟨e, he, hkeq⟩ := List.mem_map.mp (hcov d hd)
    refine ⟨⟨e.2.isoYear, e.2.isoWeek, e.2.fromDate, e.2.toDate,
      List.insertionSort dayLe e.2.days⟩, ?_, ?_⟩
    · exact (hperm.mem_iff).mpr (by rw [hmid]; exact List.mem_map_of_mem _ he)
    · obtain ⟨hdk, hdy, hdw1, hdw2⟩ := hdaykey d hd
      obtain ⟨hkf, hey, hew1, hew2⟩ := hkeyfmt e he
      have hc2 : weekKey (dayWeekPair d.date).1 (dayWeekPair d.date).2 =
          weekKey e.2.isoYear e.2.isoWeek := by
        rw [← hdk, ← hkf, hkeq]
      obtain ⟨he1, he2⟩ := weekKey_inj _ _ _ _ hdy hey (by omega) hdw2
        (by omega) hew2 hc2
      exact Prod.ext he1 he2
  · intro p hp
    obtain ⟨e, _, rfl⟩ := hmem p hp
    exact List.sorted_insertionSort dayLe e.2.days
  · intro p hp
    obtain ⟨e, he, rfl⟩ := hmem p hp
    obtain ⟨_, _, hfrom, hto, hbnd⟩ := hent e he
    have hp2 : (List.insertionSort dayLe e.2.days).Perm e.2.days :=
      List.perm_insertionSort _ _
    refine ⟨?_, ?_, ?_⟩
    · exact ((hp2.map DayMenu.date).mem_iff).mpr hfrom
    · exact ((hp2.map DayMenu.date).mem_iff).mpr hto
    · intro d hd
      exact hbnd d (hp2.mem_iff.mp hd)
  · rw [hgbw]
    exact List.sorted_insertionSort partLe mid

/-- The two-day fixture for the C7 witness: a Monday and the following
Thursday straddling a year boundary inside one ISO week. -/
def c7wDays : List DayMenu :=
  [⟨"2024-12-30", "Mo., 30.12.", []⟩, ⟨"2025-01-02", "Do., 02.01.", []⟩]

/-- Witness for C7 on two days straddling a year boundary inside one ISO
week. -/
theorem groupByWeek_partitions_witness :
    (groupByWeek c7wDays).Pairwise
      (fun p q => (p.isoYear, p.isoWeek) ≠ (q.isoYear, q.isoWeek)) ∧
    (∀ p ∈ groupByWeek c7wDays, p.days.Perm (c7wDays.filter
      (fun d => decide (dayWeekPair d.date = (p.isoYear, p.isoWeek))))) ∧
    (∀ d ∈ c7wDays, ∃ p ∈ groupByWeek c7wDays,
      dayWeekPair d.date = (p.isoYear, p.isoWeek)) ∧
    (∀ p ∈ groupByWeek c7wDays, List.Pairwise dayLe p.days) ∧
    (∀ p ∈ groupByWeek c7wDays,
      p.fromDate ∈ p.days.map DayMenu.date ∧ p.toDate ∈ p.days.map DayMenu.date ∧
      ∀ d ∈ p.days, strLe p.fromDate d.date = true ∧ strLe d.date p.toDate = true) ∧
    List.Pairwise partLe (groupByWeek c7wDays) :=
  groupByWeek_partitions c7wDays (by decide)

/-!
The aggregator (`convertDaysToMap`, `buildDayGroupedWeek`, claims C8 and
C10).  JavaScript records are modelled as insertion-ordered association
lists; `Object.entries` enumerates them in that order, and assignment to an
existing key keeps its position (the generic `upsertA` below).  The code
sorts `Object.keys` and rebuilds the record in that order; on a record with
distinct keys (which the accumulator guarantees by construction) this is the
same as stably sorting the entries by key, which is how the model states it.
-/

/-- Generic JavaScript record assignment. -/
def upsertA {α : Type} : List (String × α) → String → α → List (String × α)
  | [], k, v => [(k, v)]
  | (k', v') :: rest, k, v =>
    if k' = k then (k', v) :: rest else (k', v') :: upsertA rest k v

/-- First-match association lookup (record field access). -/
def lookupA {α : Type} : List (String × α) → String → Option α
  | [], _ => none
  | (k, v) :: rest, key => if k = key then some v else lookupA rest key

theorem mem_upsertA_keys {α : Type} (l : List (String × α)) (k : String) (v : α) :
    ∀ x, x ∈ (upsertA l k v).map Prod.fst ↔ (x = k ∨ x ∈ l.map Prod.fst) := by
  induction l with
  | nil =>
      intro x
      simp [upsertA]
  | cons hd tl ih =>
      obtain ⟨k', v'⟩ := hd
      intro x
      simp only [upsertA]
      split_ifs with hk
      · subst hk
        simp only [List.map_cons, List.mem_cons]
        constructor
        · rintro (rfl | h)
          · exact Or.inr (Or.inl rfl)
          · exact Or.inr (Or.inr h)
        · rintro (rfl | rfl | h)
          · exact Or.inl rfl
          · exact Or.inl rfl
          · exact Or.inr h
      · simp only [List.map_cons, List.mem_cons, ih x]
        constructor
        · rintro (rfl | rfl | h)
          · exact Or.inr (Or.inl rfl)
          · exact Or.inl rfl
          · exact Or.inr (Or.inr h)
        · rintro (rfl | rfl | h)
          · exact Or.inr (Or.inl rfl)
          · exact Or.inl rfl
          · exact Or.inr (Or.inr h)

theorem upsertA_keys_pairwise {α : Type} (l : List (String × α)) (k : String) (v : α)
    (h : (l.map Prod.fst).Pairwise (· ≠ ·)) :
    ((upsertA l k v).map Prod.fst).Pairwise (· ≠ ·) := by
  induction l with
  | nil => simp [upsertA]
  | cons hd tl ih =>
      obtain ⟨k', v'⟩ := hd
      rw [List.map_cons, List.pairwise_cons] at h
      simp only [upsertA]
      split_ifs with hk
      · rw [List.map_cons, List.pairwise_cons]
        exact h
      · rw [List.map_cons, List.pairwise_cons]
        refine ⟨?_, ih h.2⟩
        intro x hx
        rcases (mem_upsertA_keys tl k v x).mp hx with rfl | hx'
        · exact fun hc => hk hc
        · exact h.1 x hx'

structure DayDetails where
  label : String
  categories : List MealCategory
deriving DecidableEq, Repr

structure WeekInfo where
  isoYear : Int
  isoWeek : Int
  fromDate : String
  toDate : String
deriving DecidableEq, Repr

/-- One canteen's slice of a canteen-indexed week document. -/
structure CanteenWeek where
  name : String
  sourceUrl : String
  legend : Option Legend
  days : List (String × DayDetails)
deriving DecidableEq, Repr

/-- The canteen-indexed week document. -/
structure OutputWeek where
  week : WeekInfo
  generatedAt : String
  canteens : List (String × CanteenWeek)
deriving DecidableEq, Repr

/-- One canteen's slice of a date entry in the day-indexed document. -/
structure DayCanteen where
  name : String
  sourceUrl : String
  legend : Option Legend
  categories : List MealCategory
deriving DecidableEq, Repr

/-- One date entry of the day-indexed document. -/
structure DayGroup where
  label : String
  canteens : List (String × DayCanteen)
deriving DecidableEq, Repr

/-- The day-indexed week document. -/
structure DayGroupedWeek where
  week : WeekInfo
  generatedAt : String
  days : List (String × DayGroup)
deriving DecidableEq, Repr

/-- `convertDaysToMap(days)`: build the date → details record; a repeated
date overwrites in place. -/
def convertDaysToMap (days : List DayMenu) : List (String × DayDetails) :=
  days.foldl (fun m day => upsertA m day.date ⟨day.label, day.categories⟩) []

/-- Net effect of one inner-loop iteration of `buildDayGroupedWeek`: a fresh
date creates the entry with this day's label (the code creates
`{label, canteens: {}}` and immediately assigns the slug), an existing date
keeps its label and assigns the slug into its canteens record. -/
def insertDayGroup : List (String × DayGroup) → String → CanteenWeek →
    String → DayDetails → List (String × DayGroup)
  | [], slug, c, date, day =>
    [(date, ⟨day.label, [(slug, ⟨c.name, c.sourceUrl, c.legend, day.categories⟩)]⟩)]
  | (k, g) :: rest, slug, c, date, day =>
    if k = date then
      (k, ⟨g.label,
        upsertA g.canteens slug ⟨c.name, c.sourceUrl, c.legend, day.categories⟩⟩) :: rest
    else (k, g) :: insertDayGroup rest slug c date day

/-- The accumulation phase of `buildDayGroupedWeek`: the nested
`for (slug, canteen)` / `for (date, day)` loops. -/
def buildAccum (canteens : List (String × CanteenWeek)) : List (String × DayGroup) :=
  canteens.foldl
    (fun acc sc => sc.2.days.foldl
      (fun acc2 dd => insertDayGroup acc2 sc.1 sc.2 dd.1 dd.2) acc) []

/-- Key-sorted association entries, the model of iterating
`Object.keys(record).sort()` over a record with distinct keys. -/
def sortEntries {α : Type} (l : List (String × α)) : List (String × α) :=
  List.insertionSort (fun a b : String × α => strLe a.1 b.1 = true) l

instance {α : Type} : DecidableRel
    (fun a b : String × α => strLe a.1 b.1 = true) := fun a b =>
  inferInstanceAs (Decidable (strLe a.1 b.1 = true))

instance {α : Type} : IsTotal (String × α) (fun a b => strLe a.1 b.1 = true) :=
  ⟨fun a b => strLe_total a.1 b.1⟩

instance {α : Type} : IsTrans (String × α) (fun a b => strLe a.1 b.1 = true) :=
  ⟨fun _ _ _ h1 h2 => strLe_trans _ _ _ h1 h2⟩

/-- `buildDayGroupedWeek(source)`. -/
def buildDayGroupedWeek (source : OutputWeek) : DayGroupedWeek :=
  let acc := buildAccum source.canteens
  ⟨source.week, source.generatedAt,
    (sortEntries acc).map (fun kg => (kg.1, ⟨kg.2.label, sortEntries kg.2.canteens⟩))⟩

/-- The flattened iteration sequence of the two nested loops. -/
def flattenSource (canteens : List (String × CanteenWeek)) :
    List (String × CanteenWeek × String × DayDetails) :=
  canteens.flatMap (fun sc => sc.2.days.map (fun dd => (sc.1, sc.2, dd.1, dd.2)))

/-- The two nested folds equal the single fold over the flattened sequence. -/
theorem buildAccum_eq_foldl (canteens : List (String × CanteenWeek)) :
    buildAccum canteens = (flattenSource canteens).foldl
      (fun acc q => insertDayGroup acc q.1 q.2.1 q.2.2.1 q.2.2.2) [] := by
  unfold buildAccum flattenSource
  generalize ([] : List (String × DayGroup)) = init
  induction canteens generalizing init with
  | nil => rfl
  | cons sc rest ih =>
      simp only [List.foldl_cons, List.flatMap_cons, List.foldl_append, ih]
      congr 1
      rw [List.foldl_map]

theorem insertDayGroup_keys_mem (slug : String) (c : CanteenWeek) (date : String)
    (day : DayDetails) :
    ∀ acc : List (String × DayGroup), date ∈ acc.map Prod.fst →
    (insertDayGroup acc slug c date day).map Prod.fst = acc.map Prod.fst := by
  intro acc
  induction acc with
  | nil => intro h; simp at h
  | cons kp rest ih =>
      obtain ⟨k, g⟩ := kp
      intro h
      by_cases hk : k = date
      · simp only [insertDayGroup, if_pos hk]
        simp
      · simp only [insertDayGroup, if_neg hk]
        rw [List.map_cons] at h ⊢
        rcases List.mem_cons.mp h with he | he
        · exact absurd he.symm hk
        · rw [List.map_cons, ih he]

theorem insertDayGroup_fresh (slug : String) (c : CanteenWeek) (date : String)
    (day : DayDetails) :
    ∀ acc : List (String × DayGroup), date ∉ acc.map Prod.fst →
    insertDayGroup acc slug c date day = acc ++
      [(date, ⟨day.label, [(slug, ⟨c.name, c.sourceUrl, c.legend, day.categories⟩)]⟩)] := by
  intro acc
  induction acc with
  | nil => intro _; rfl
  | cons kp rest ih =>
      obtain ⟨k, g⟩ := kp
      intro h
      simp only [List.map_cons, List.mem_cons] at h
      push_neg at h
      simp only [insertDayGroup]
      rw [if_neg (fun hc => h.1 hc.symm)]
      rw [ih h.2]
      simp

/-- The per-entry facts of the day accumulator: the label is the first
contribution's label and the canteens record is the in-order fold of
record assignments over the contributions for that date. -/
def BEntryInv (processed : List (String × CanteenWeek × String × DayDetails))
    (e : String × DayGroup) : Prop :=
  ∃ q0, (processed.filter (fun q => decide (q.2.2.1 = e.1))).head? = some q0 ∧
    e.2.label = q0.2.2.2.label ∧
    e.2.canteens = (processed.filter (fun q => decide (q.2.2.1 = e.1))).foldl
      (fun m q => upsertA m q.1
        ⟨q.2.1.name, q.2.1.sourceUrl, q.2.1.legend, q.2.2.2.categories⟩) []

theorem insertDayGroup_entries (q : String × CanteenWeek × String × DayDetails) :
    ∀ (acc : List (String × DayGroup))
      (processed : List (String × CanteenWeek × String × DayDetails)),
    (acc.map Prod.fst).Pairwise (· ≠ ·) →
    (∀ r ∈ processed, r.2.2.1 ∈ acc.map Prod.fst ∨ r.2.2.1 ≠ q.2.2.1) →
    (∀ e ∈ acc, BEntryInv processed e) →
    ∀ e ∈ insertDayGroup acc q.1 q.2.1 q.2.2.1 q.2.2.2,
      BEntryInv (processed ++ [q]) e := by
  intro acc
  induction acc with
  | nil =>
      intro processed _ hcov _ e he
      simp only [insertDayGroup, List.mem_singleton] at he
      subst he
      have hfil : processed.filter (fun r => decide (r.2.2.1 = q.2.2.1)) = [] := by
        rw [List.filter_eq_nil_iff]
        intro r hr
        rcases hcov r hr with hin | hne
        · simp at hin
        · simpa using hne
      refine ⟨q, ?_, rfl, ?_⟩
      · rw [List.filter_append, hfil]
        simp
      · rw [List.filter_append, hfil]
        simp [upsertA]
  | cons kp rest ih =>
      obtain ⟨k, g⟩ := kp
      intro processed hpw hcov hold e he
      rw [List.map_cons] at hpw
      have hpw' := List.pairwise_cons.mp hpw
      by_cases hk : k = q.2.2.1
      · simp only [insertDayGroup, if_pos hk] at he
        rcases List.mem_cons.mp he with rfl | he'
        · obtain ⟨q0, hq0, hlab, hcant⟩ := hold (k, g) (by simp)
          have hfe : List.filter (fun r => decide (r.2.2.1 = k)) [q] = [q] := by
            simp only [List.filter]
            rw [decide_eq_true (show q.2.2.1 = k from hk.symm)]
          refine ⟨q0, ?_, hlab, ?_⟩
          · show (List.filter (fun r => decide (r.2.2.1 = k)) (processed ++ [q])).head? =
              some q0
            rw [List.filter_append, hfe]
            rcases hfl : processed.filter (fun r => decide (r.2.2.1 = k)) with _ | ⟨a, t⟩
            · rw [hfl] at hq0
              cases hq0
            · rw [hfl] at hq0
              rw [List.head?_cons] at hq0
              rw [hfl, List.cons_append, List.head?_cons]
              exact hq0
          · show upsertA g.canteens q.1 _ = _
            rw [List.filter_append, hfe, List.foldl_append, ← hcant]
            rfl
        · obtain ⟨q0, hq0, hlab, hcant⟩ := hold e (by simp [he'])
          have hkey : e.1 ≠ q.2.2.1 := by
            intro hc
            have : k ≠ e.1 := hpw'.1 e.1 (List.mem_map_of_mem Prod.fst he')
            exact this (hk.trans hc.symm)
          have hfe : List.filter (fun r => decide (r.2.2.1 = e.1)) [q] = [] := by
            simp only [List.filter]
            rw [decide_eq_false (fun hc => hkey hc.symm)]
          refine ⟨q0, ?_, hlab, ?_⟩
          · rw [List.filter_append, hfe, List.append_nil]
            exact hq0
          · rw [List.filter_append, hfe, List.append_nil]
            exact hcant
      · simp only [insertDayGroup, if_neg hk] at he
        rcases List.mem_cons.mp he with rfl | he'
        · obtain ⟨q0, hq0, hlab, hcant⟩ := hold (k, g) (by simp)
          have hfe : List.filter (fun r => decide (r.2.2.1 = (k, g).1)) [q] = [] := by
            simp only [List.filter]
            rw [decide_eq_false (show ¬q.2.2.1 = (k, g).1 from fun hc => hk hc.symm)]
          refine ⟨q0, ?_, hlab, ?_⟩
          · rw [List.filter_append, hfe, List.append_nil]
            exact hq0
          · rw [List.filter_append, hfe, List.append_nil]
            exact hcant
        · refine ih processed hpw'.2 ?_ (fun x hx => hold x (by simp [hx])) e he'
          intro r hr
          rcases hcov r hr with hin | hne
          · rw [List.map_cons] at hin
            rcases List.mem_cons.mp hin with heq | hin'
            · right
              rw [heq]
              exact fun hc => hk (by simpa using hc)
            · exact Or.inl hin'
          · exact Or.inr hne

/-- Full invariant of the day-accumulation loop. -/
def BInv (processed : List (String × CanteenWeek × String × DayDetails))
    (acc : List (String × DayGroup)) : Prop :=
  (acc.map Prod.fst).Pairwise (· ≠ ·) ∧
  (∀ r ∈ processed, r.2.2.1 ∈ acc.map Prod.fst) ∧
  (∀ e ∈ acc, BEntryInv processed e)

theorem insertDayGroup_inv (processed : List (String × CanteenWeek × String × DayDetails))
    (q : String × CanteenWeek × String × DayDetails)
    (acc : List (String × DayGroup)) (h : BInv processed acc) :
    BInv (processed ++ [q]) (insertDayGroup acc q.1 q.2.1 q.2.2.1 q.2.2.2) := by
  obtain ⟨hpw, hcov, hent⟩ := h
  by_cases hmem : q.2.2.1 ∈ acc.map Prod.fst
  · refine ⟨?_, ?_, ?_⟩
    · rw [insertDayGroup_keys_mem _ _ _ _ acc hmem]
      exact hpw
    · intro r hr
      rw [insertDayGroup_keys_mem _ _ _ _ acc hmem]
      rcases List.mem_append.mp hr with hr' | hr'
      · exact hcov r hr'
      · simp only [List.mem_singleton] at hr'
        subst hr'
        exact hmem
    · exact insertDayGroup_entries q acc processed hpw
        (fun r hr => Or.inl (hcov r hr)) hent
  · refine ⟨?_, ?_, ?_⟩
    · rw [insertDayGroup_fresh _ _ _ _ acc hmem, List.map_append]
      rw [List.pairwise_append]
      refine ⟨hpw, by simp, ?_⟩
      intro a ha b hb
      simp only [List.map_cons, List.map_nil, List.mem_singleton] at hb
      subst hb
      exact fun hc => hmem (hc ▸ ha)
    · intro r hr
      rw [insertDayGroup_fresh _ _ _ _ acc hmem, List.map_append]
      rcases List.mem_append.mp hr with hr' | hr'
      · exact List.mem_append_left _ (hcov r hr')
      · simp only [List.mem_singleton] at hr'
        subst hr'
        exact List.mem_append_right _ (by simp)
    · exact insertDayGroup_entries q acc processed hpw
        (fun r hr => Or.inl (hcov r hr)) hent

theorem foldl_insertDayGroup_inv :
    ∀ (qs processed : List (String × CanteenWeek × String × DayDetails))
      (acc : List (String × DayGroup)), BInv processed acc →
    BInv (processed ++ qs)
      (qs.foldl (fun a q => insertDayGroup a q.1 q.2.1 q.2.2.1 q.2.2.2) acc) := by
  intro qs
  induction qs with
  | nil =>
      intro processed acc h
      simpa using h
  | cons q rest ih =>
      intro processed acc h
      have h1 := insertDayGroup_inv processed q acc h
      have h2 := ih (processed ++ [q]) _ h1
      rw [List.append_assoc] at h2
      simpa using h2

theorem buildAccum_inv (canteens : List (String × CanteenWeek)) :
    BInv (flattenSource canteens) (buildAccum canteens) := by
  rw [buildAccum_eq_foldl]
  have := foldl_insertDayGroup_inv (flattenSource canteens) [] []
    ⟨by simp, by simp, by simp⟩
  simpa using this

theorem lookupA_eq_none {α : Type} :
    ∀ (l : List (String × α)) (k : String),
    lookupA l k = none ↔ k ∉ l.map Prod.fst := by
  intro l
  induction l with
  | nil => intro k; simp [lookupA]
  | cons hd tl ih =>
      obtain ⟨k', v'⟩ := hd
      intro k
      simp only [lookupA, List.map_cons, List.mem_cons]
      split_ifs with hk
      · subst hk
        simp
      · rw [ih k]
        constructor
        · intro h hc
          rcases hc with hc | hc
          · exact hk hc.symm
          · exact h hc
        · intro h hc
          exact h (Or.inr hc)

theorem lookupA_mem {α : Type} :
    ∀ (l : List (String × α)) (k : String) (v : α),
    lookupA l k = some v → (k, v) ∈ l := by
  intro l
  induction l with
  | nil => intro k v h; cases h
  | cons hd tl ih =>
      obtain ⟨k', v'⟩ := hd
      intro k v h
      simp only [lookupA] at h
      split_ifs at h with hk
      · subst hk
        rw [Option.some.injEq] at h
        subst h
        exact List.mem_cons_self _ _
      · exact List.mem_cons_of_mem _ (ih k v h)

theorem mem_lookupA {α : Type} :
    ∀ (l : List (String × α)), (l.map Prod.fst).Pairwise (· ≠ ·) →
    ∀ (k : String) (v : α), (k, v) ∈ l → lookupA l k = some v := by
  intro l
  induction l with
  | nil => intro _ k v h; cases h
  | cons hd tl ih =>
      obtain ⟨k', v'⟩ := hd
      intro hpw k v h
      rw [List.map_cons, List.pairwise_cons] at hpw
      simp only [lookupA]
      rcases List.mem_cons.mp h with he | he
      · cases he
        rw [if_pos rfl]
      · have hk : k' ≠ k :=
          hpw.1 k (by simpa using List.mem_map_of_mem Prod.fst he)
        rw [if_neg hk]
        exact ih hpw.2 k v he

theorem lookupA_perm {α : Type} (l1 l2 : List (String × α)) (h : l1.Perm l2)
    (hpw : (l1.map Prod.fst).Pairwise (· ≠ ·)) (k : String) :
    lookupA l1 k = lookupA l2 k := by
  have hpw2 : (l2.map Prod.fst).Pairwise (· ≠ ·) :=
    ((h.map Prod.fst).pairwise_iff (fun hne => Ne.symm hne)).mp hpw
  rcases hl : lookupA l1 k with _ | v
  · rw [lookupA_eq_none] at hl
    have : k ∉ l2.map Prod.fst := fun hc => hl (((h.map Prod.fst).mem_iff).mpr hc)
    exact ((lookupA_eq_none l2 k).mpr this).symm
  · have hm : (k, v) ∈ l2 := h.mem_iff.mp (lookupA_mem l1 k v hl)
    exact (mem_lookupA l2 hpw2 k v hm).symm

theorem lookupA_map_val {α β : Type} (f : α → β) :
    ∀ (l : List (String × α)) (k : String),
    lookupA (l.map (fun kg => (kg.1, f kg.2))) k = (lookupA l k).map f := by
  intro l
  induction l with
  | nil => intro k; rfl
  | cons hd tl ih =>
      obtain ⟨k', v'⟩ := hd
      intro k
      simp only [List.map_cons, lookupA]
      split_ifs with hk
      · rfl
      · exact ih k

theorem foldl_upsertA_keys_mem {α : Type}
    (f : String × CanteenWeek × String × DayDetails → α) :
    ∀ (qs : List (String × CanteenWeek × String × DayDetails))
      (m : List (String × α)) (x : String),
    x ∈ ((qs.foldl (fun m q => upsertA m q.1 (f q)) m).map Prod.fst) ↔
      (x ∈ m.map Prod.fst ∨ ∃ q ∈ qs, q.1 = x) := by
  intro qs
  induction qs with
  | nil =>
      intro m x
      simp
  | cons q rest ih =>
      intro m x
      simp only [List.foldl_cons]
      rw [ih (upsertA m q.1 (f q)) x]
      constructor
      · rintro (hm | hq)
        · rcases (mem_upsertA_keys m q.1 (f q) x).mp hm with rfl | hm'
          · exact Or.inr ⟨q, by simp, rfl⟩
          · exact Or.inl hm'
        · obtain ⟨r, hr, hrx⟩ := hq
          exact Or.inr ⟨r, by simp [hr], hrx⟩
      · rintro (hm | ⟨r, hr, hrx⟩)
        · exact Or.inl ((mem_upsertA_keys m q.1 (f q) x).mpr (Or.inr hm))
        · rcases List.mem_cons.mp hr with rfl | hr'
          · exact Or.inl ((mem_upsertA_keys m r.1 (f r) x).mpr (Or.inl hrx.symm))
          · exact Or.inr ⟨r, hr', hrx⟩

theorem foldl_upsertA_keys_pairwise {α : Type}
    (f : String × CanteenWeek × String × DayDetails → α) :
    ∀ (qs : List (String × CanteenWeek × String × DayDetails))
      (m : List (String × α)),
    (m.map Prod.fst).Pairwise (· ≠ ·) →
    (((qs.foldl (fun m q => upsertA m q.1 (f q)) m)).map Prod.fst).Pairwise (· ≠ ·) := by
  intro qs
  induction qs with
  | nil => intro m h; exact h
  | cons q rest ih =>
      intro m h
      simp only [List.foldl_cons]
      exact ih _ (upsertA_keys_pairwise m q.1 (f q) h)

theorem strLt_of_le_ne (a b : String) (hle : strLe a b = true) (hne : a ≠ b) :
    strLt a b = true := by
  rcases hl : strLt a b with _ | _
  · exfalso
    unfold strLe strLt at *
    have hba : strLtB b.data a.data = false := by
      revert hle
      cases strLtB b.data a.data <;> simp
    have := strLtB_connex a.data b.data hl hba
    apply hne
    cases a
    cases b
    exact congrArg String.mk this
  · rfl

/-- C10: for every canteen-indexed week and date, the label the day-indexed
document records for that date is the label contributed by the first
(slug, canteen) pair in the canteens record's enumeration order whose days
contain the date (both sides are `none` when no canteen has the date);
labels of later canteens for the same date never appear. -/
theorem buildDayGroupedWeek_label_first (source : OutputWeek) (date : String) :
    (lookupA (buildDayGroupedWeek source).days date).map DayGroup.label =
    ((flattenSource source.canteens).filter
      (fun q => decide (q.2.2.1 = date))).head?.map (fun q => q.2.2.2.label) := by
  obtain ⟨hpw, hcov, hent⟩ := buildAccum_inv source.canteens
  have hdays : (buildDayGroupedWeek source).days =
      (sortEntries (buildAccum source.canteens)).map
        (fun kg => (kg.1,
          ((⟨kg.2.label, sortEntries kg.2.canteens⟩ : DayGroup)))) := rfl
  rw [hdays,
    lookupA_map_val (fun g : DayGroup => (⟨g.label, sortEntries g.canteens⟩ : DayGroup))]
  rw [← lookupA_perm (buildAccum source.canteens)
    (sortEntries (buildAccum source.canteens))
    (List.perm_insertionSort _ _).symm hpw date]
  rcases hl : lookupA (buildAccum source.canteens) date with _ | g
  · rw [lookupA_eq_none] at hl
    have hfe : (flattenSource source.canteens).filter
        (fun q => decide (q.2.2.1 = date)) = [] := by
      rw [List.filter_eq_nil_iff]
      intro q hq hd
      have := hcov q hq
      rw [of_decide_eq_true hd] at this
      exact hl this
    rw [hfe]
    rfl
  · have hm := lookupA_mem _ _ _ hl
    obtain ⟨q0, hq0, hlab, _⟩ := hent (date, g) hm
    have hq0' : ((flattenSource source.canteens).filter
        (fun q => decide (q.2.2.1 = date))).head? = some q0 := hq0
    rw [hq0']
    exact congrArg some hlab

/-- C8: the day-indexed document's outer date keys are in strictly
ascending lexicographic order, every date entry's inner canteen-slug keys
are in strictly ascending lexicographic order, and whenever two distinct
canteens both contribute the same date, that date has exactly one entry
(outer keys are strictly sorted, hence distinct) containing both slugs. -/
theorem buildDayGroupedWeek_sorted_merge (source : OutputWeek) :
    (((buildDayGroupedWeek source).days.map Prod.fst).Pairwise
      (fun a b => strLt a b = true)) ∧
    (∀ e ∈ (buildDayGroupedWeek source).days,
      (e.2.canteens.map Prod.fst).Pairwise (fun a b => strLt a b = true)) ∧
    (∀ s1 s2 date, s1 ≠ s2 →
      (∃ c1, (s1, c1) ∈ source.canteens ∧ date ∈ c1.days.map Prod.fst) →
      (∃ c2, (s2, c2) ∈ source.canteens ∧ date ∈ c2.days.map Prod.fst) →
      ∃ g, lookupA (buildDayGroupedWeek source).days date = some g ∧
        s1 ∈ g.canteens.map Prod.fst ∧ s2 ∈ g.canteens.map Prod.fst) := by
  obtain ⟨hpw, hcov, hent⟩ := buildAccum_inv source.canteens
  set acc := buildAccum source.canteens with hacc
  have hdays : (buildDayGroupedWeek source).days =
      (sortEntries acc).map
        (fun kg => (kg.1,
          ((⟨kg.2.label, sortEntries kg.2.canteens⟩ : DayGroup)))) := rfl
  have hsortdistinct : ∀ {α : Type} (l : List (String × α)),
      (l.map Prod.fst).Pairwise (· ≠ ·) →
      ((sortEntries l).map Prod.fst).Pairwise (fun a b => strLt a b = true) := by
    intro α l hl
    have hsorted : List.Pairwise (fun a b : String × α => strLe a.1 b.1 = true)
        (sortEntries l) := List.sorted_insertionSort _ l
    have hdist : (sortEntries l).Pairwise (fun e f => e.1 ≠ f.1) := by
      have h1 : l.Pairwise (fun e f => e.1 ≠ f.1) := List.pairwise_map.mp hl
      exact ((List.perm_insertionSort
        (fun a b : String × α => strLe a.1 b.1 = true) l).pairwise_iff
        (fun hne => Ne.symm hne)).mpr h1
    rw [List.pairwise_map]
    exact (hsorted.and hdist).imp
      (fun h => strLt_of_le_ne _ _ h.1 h.2)
  refine ⟨?_, ?_, ?_⟩
  · rw [hdays, List.map_map]
    exact hsortdistinct acc hpw
  · intro e he
    rw [hdays] at he
    obtain ⟨kg, hkg, rfl⟩ := List.mem_map.mp he
    have hkg' : kg ∈ acc :=
      (List.perm_insertionSort _ _).mem_iff.mp hkg
    obtain ⟨q0, hq0, hlab, hcant⟩ := hent kg hkg'
    have hckeys : (kg.2.canteens.map Prod.fst).Pairwise (· ≠ ·) := by
      rw [hcant]
      exact foldl_upsertA_keys_pairwise _ _ [] (by simp)
    exact hsortdistinct kg.2.canteens hckeys
  · intro s1 s2 date hne ⟨c1, hc1, hd1⟩ ⟨c2, hc2, hd2⟩
    obtain ⟨dd1, hdd1, hdd1e⟩ := List.mem_map.mp hd1
    obtain ⟨dd2, hdd2, hdd2e⟩ := List.mem_map.mp hd2
    have hq1 : (s1, c1, dd1.1, dd1.2) ∈ flattenSource source.canteens := by
      unfold flattenSource
      rw [List.mem_flatMap]
      exact ⟨(s1, c1), hc1, by
        rw [List.mem_map]
        exact ⟨dd1, hdd1, rfl⟩⟩
    have hq2 : (s2, c2, dd2.1, dd2.2) ∈ flattenSource source.canteens := by
      unfold flattenSource
      rw [List.mem_flatMap]
      exact ⟨(s2, c2), hc2, by
        rw [List.mem_map]
        exact ⟨dd2, hdd2, rfl⟩⟩
    have hkmem : date ∈ acc.map Prod.fst := by
      have := hcov (s1, c1, dd1.1, dd1.2) hq1
      simpa [hdd1e] using this
    rcases hl : lookupA acc date with _ | g
    · rw [lookupA_eq_none] at hl
      exact absurd hkmem hl
    · have hm := lookupA_mem _ _ _ hl
      obtain ⟨q0, hq0, hlab, hcant⟩ := hent (date, g) hm
      refine ⟨⟨g.label, sortEntries g.canteens⟩, ?_, ?_, ?_⟩
      · rw [hdays,
          lookupA_map_val (fun g : DayGroup =>
            (⟨g.label, sortEntries g.canteens⟩ : DayGroup)),
          ← lookupA_perm acc (sortEntries acc)
            (List.perm_insertionSort _ _).symm hpw date, hl]
        rfl
      · show s1 ∈ (List.insertionSort
          (fun a b : String × DayCanteen => strLe a.1 b.1 = true) g.canteens).map Prod.fst
        have hperm := (List.perm_insertionSort
          (fun a b : String × DayCanteen => strLe a.1 b.1 = true) g.canteens).map
          Prod.fst
        rw [hperm.mem_iff]
        have hfmem : (s1, c1, dd1.1, dd1.2) ∈
            (flattenSource source.canteens).filter
              (fun q => decide (q.2.2.1 = (date, g).1)) := by
          rw [List.mem_filter]
          exact ⟨hq1, by simpa using hdd1e⟩
        rw [show g.canteens = (date, g).2.canteens from rfl, hcant]
        exact (foldl_upsertA_keys_mem _ _ [] s1).mpr
          (Or.inr ⟨(s1, c1, dd1.1, dd1.2), hfmem, rfl⟩)
      · show s2 ∈ (List.insertionSort
          (fun a b : String × DayCanteen => strLe a.1 b.1 = true) g.canteens).map Prod.fst
        have hperm := (List.perm_insertionSort
          (fun a b : String × DayCanteen => strLe a.1 b.1 = true) g.canteens).map
          Prod.fst
        rw [hperm.mem_iff]
        have hfmem : (s2, c2, dd2.1, dd2.2) ∈
            (flattenSource source.canteens).filter
              (fun q => decide (q.2.2.1 = (date, g).1)) := by
          rw [List.mem_filter]
          exact ⟨hq2, by simpa using hdd2e⟩
        rw [show g.canteens = (date, g).2.canteens from rfl, hcant]
        exact (foldl_upsertA_keys_mem _ _ [] s2).mpr
          (Or.inr ⟨(s2, c2, dd2.1, dd2.2), hfmem, rfl⟩)

/-- A concrete two-canteen week in which both canteens serve 2025-10-06. -/
def c8Source : OutputWeek :=
  ⟨⟨2025, 41, "2025-10-06", "2025-10-10"⟩, "2025-10-06T00:00:00.000Z",
   [("qwest", ⟨"Q.WEST", "u1", none, [("2025-10-06", ⟨"Mo., 06.10.", []⟩)]⟩),
    ("mensa", ⟨"Mensa", "u2", none, [("2025-10-06", ⟨"Mo., 06.10.", []⟩)]⟩)]⟩

/-- Witness for C8: on the two-canteen fixture, the shared date 2025-10-06
gets a single entry containing both canteen slugs. -/
theorem buildDayGroupedWeek_sorted_merge_witness :
    ∃ g, lookupA (buildDayGroupedWeek c8Source).days "2025-10-06" = some g ∧
      "qwest" ∈ g.canteens.map Prod.fst ∧ "mensa" ∈ g.canteens.map Prod.fst :=
  (buildDayGroupedWeek_sorted_merge c8Source).2.2 "qwest" "mensa" "2025-10-06"
    (by decide)
    ⟨⟨"Q.WEST", "u1", none, [("2025-10-06", ⟨"Mo., 06.10.", []⟩)]⟩, by decide, by decide⟩
    ⟨⟨"Mensa", "u2", none, [("2025-10-06", ⟨"Mo., 06.10.", []⟩)]⟩, by decide, by decide⟩

/-!
Serialization and the write-if-changed pipeline of `main`.

`JSON.stringify(payload, null, 2)` is modelled by one renderer per payload
shape: objects print their fields in creation order (the object-literal
order of the code), each nesting level indents by two spaces, empty objects
and arrays print as `\x7b\x7d` and `[]`, and strings are quoted with the
standard JSON escapes. Prices are carried as exact cent amounts, rendered
the way JavaScript prints the corresponding two-decimal number (the
shortest round-trip decimal: no trailing zero digits after the point, no
point for whole euro amounts).
-/

/-- One character of `JSON.stringify` string quoting. -/
def escChar (c : Char) : List Char :=
  if c = '"' then ['\\', '"']
  else if c = '\\' then ['\\', '\\']
  else if c = Char.ofNat 8 then ['\\', 'b']
  else if c = Char.ofNat 9 then ['\\', 't']
  else if c = Char.ofNat 10 then ['\\', 'n']
  else if c = Char.ofNat 12 then ['\\', 'f']
  else if c = Char.ofNat 13 then ['\\', 'r']
  else if c.toNat < 32 then
    ['\\', 'u', '0', '0', Nat.digitChar (c.toNat / 16), Nat.digitChar (c.toNat % 16)]
  else [c]

/-- JSON string quoting. -/
def jsonQuote (s : String) : String :=
  ⟨'"' :: (s.data.flatMap escChar ++ ['"'])⟩

/-- An indentation prefix. -/
def spacesN (n : Nat) : String :=
  ⟨List.replicate n ' '⟩

/-- Render an object from already-rendered field values, `ind` being the
column of the object's own braces. -/
def jObj (ind : Nat) (fields : List (String × String)) : String :=
  match fields with
  | [] => "\x7b\x7d"
  | _ =>
    "\x7b\n" ++ String.intercalate ",\n"
        (fields.map (fun kv => spacesN (ind + 2) ++ jsonQuote kv.1 ++ ": " ++ kv.2))
      ++ "\n" ++ spacesN ind ++ "\x7d"

/-- Render an array from already-rendered items. -/
def jArr (ind : Nat) (items : List String) : String :=
  match items with
  | [] => "[]"
  | _ =>
    "[\n" ++ String.intercalate ",\n" (items.map (fun v => spacesN (ind + 2) ++ v))
      ++ "\n" ++ spacesN ind ++ "]"

/-- How `JSON.stringify` prints the number `cents / 100`. -/
def centsToString (n : Nat) : String :=
  if n % 100 = 0 then natToString (n / 100)
  else if n % 10 = 0 then natToString (n / 100) ++ "." ++ natToString ((n / 10) % 10)
  else natToString (n / 100) ++ "." ++ natToString ((n % 100) / 10) ++ natToString (n % 10)

/-- Rendering of a legend (field order `info`, `allergens`, `additives`). -/
def serLegend (ind : Nat) (l : Legend) : String :=
  jObj ind
    [("info", jObj (ind + 2) (l.info.map (fun kv => (kv.1, jsonQuote kv.2)))),
     ("allergens", jObj (ind + 2) (l.allergens.map (fun kv => (kv.1, jsonQuote kv.2)))),
     ("additives", jObj (ind + 2) (l.additives.map (fun kv => (kv.1, jsonQuote kv.2))))]

/-- Rendering of a nullable legend. -/
def serLegendOpt (ind : Nat) : Option Legend → String
  | none => "null"
  | some l => serLegend ind l

/-- Rendering of a price (field order `raw`, `currency`, `values`, `labels`). -/
def serPrice (ind : Nat) (p : MealPrice) : String :=
  jObj ind
    [("raw", jsonQuote p.raw), ("currency", jsonQuote p.currency),
     ("values", jArr (ind + 2) (p.values.map centsToString)),
     ("labels", jArr (ind + 2) (p.labels.map jsonQuote))]

/-- Rendering of a meal entry (field order of the `parseMeal` literal). -/
def serMeal (ind : Nat) (m : MealEntry) : String :=
  jObj ind
    [("title", jsonQuote m.title),
     ("allergens", jArr (ind + 2) (m.allergens.map jsonQuote)),
     ("allergensRaw", match m.allergensRaw with | none => "null" | some s => jsonQuote s),
     ("price", match m.price with | none => "null" | some p => serPrice (ind + 2) p),
     ("highlight", if m.highlight then "true" else "false")]

/-- Rendering of a meal category (field order `title`, `meals`). -/
def serCategory (ind : Nat) (c : MealCategory) : String :=
  jObj ind
    [("title", jsonQuote c.title),
     ("meals", jArr (ind + 2) (c.meals.map (serMeal (ind + 4))))]

/-- Rendering of a `week` header (field order of the aggregation literal). -/
def serWeekInfo (ind : Nat) (w : WeekInfo) : String :=
  jObj ind
    [("isoYear", intToString w.isoYear), ("isoWeek", intToString w.isoWeek),
     ("from", jsonQuote w.fromDate), ("to", jsonQuote w.toDate)]

/-- Rendering of a day's details (field order `label`, `categories`). -/
def serDayDetails (ind : Nat) (d : DayDetails) : String :=
  jObj ind
    [("label", jsonQuote d.label),
     ("categories", jArr (ind + 2) (d.categories.map (serCategory (ind + 4))))]

/-- Rendering of a canteen's slice of the canteen-indexed document
(field order `name`, `sourceUrl`, `legend`, `days`). -/
def serCanteenWeek (ind : Nat) (c : CanteenWeek) : String :=
  jObj ind
    [("name", jsonQuote c.name), ("sourceUrl", jsonQuote c.sourceUrl),
     ("legend", serLegendOpt (ind + 2) c.legend),
     ("days", jObj (ind + 2) (c.days.map (fun kv => (kv.1, serDayDetails (ind + 4) kv.2))))]

/-- `JSON.stringify(weekPayload, null, 2)`. -/
def serOutputWeek (w : OutputWeek) : String :=
  jObj 0
    [("week", serWeekInfo 2 w.week), ("generatedAt", jsonQuote w.generatedAt),
     ("canteens", jObj 2 (w.canteens.map (fun kv => (kv.1, serCanteenWeek 4 kv.2))))]

/-- Rendering of a canteen's slice of a date entry
(field order `name`, `sourceUrl`, `legend`, `categories`). -/
def serDayCanteen (ind : Nat) (c : DayCanteen) : String :=
  jObj ind
    [("name", jsonQuote c.name), ("sourceUrl", jsonQuote c.sourceUrl),
     ("legend", serLegendOpt (ind + 2) c.legend),
     ("categories", jArr (ind + 2) (c.categories.map (serCategory (ind + 4))))]

/-- Rendering of a date entry (field order `label`, `canteens`). -/
def serDayGroup (ind : Nat) (g : DayGroup) : String :=
  jObj ind
    [("label", jsonQuote g.label),
     ("canteens", jObj (ind + 2) (g.canteens.map (fun kv => (kv.1, serDayCanteen (ind + 4) kv.2))))]

/-- `JSON.stringify(byDayPayload, null, 2)`. -/
def serDayGroupedWeek (w : DayGroupedWeek) : String :=
  jObj 0
    [("week", serWeekInfo 2 w.week), ("generatedAt", jsonQuote w.generatedAt),
     ("days", jObj 2 (w.days.map (fun kv => (kv.1, serDayGroup 4 kv.2))))]

/-- One entry of the `CANTEENS` configuration table. -/
structure CanteenConfig where
  slug : String
  name : String
  url : String
deriving DecidableEq, Repr

/-- Net effect of one partition iteration of the aggregation loop of `main`:
widen `week.from` / `week.to` (JavaScript string comparison) and assign the
canteen's slice; a fresh week key first creates the entry from the partition
with an empty canteens record, on which the same widening is a no-op. -/
def mergePartition (c : CanteenConfig) (legend : Option Legend) (p : WeekPartition)
    (w : OutputWeek) : OutputWeek :=
  ⟨⟨w.week.isoYear, w.week.isoWeek,
    (if strLt w.week.fromDate p.fromDate = true then w.week.fromDate else p.fromDate),
    (if strLt p.toDate w.week.toDate = true then w.week.toDate else p.toDate)⟩,
   w.generatedAt,
   upsertA w.canteens c.slug ⟨c.name, c.url, legend, convertDaysToMap p.days⟩⟩

/-- One partition iteration on the `aggregated` map (insertion-ordered,
keyed by the week key string). -/
def aggStep (generatedAt : String) (cp : CanteenConfig × ParsedMenu)
    (acc2 : List (String × OutputWeek)) (p : WeekPartition) : List (String × OutputWeek) :=
  upsertA acc2 (weekKey p.isoYear p.isoWeek)
    (mergePartition cp.1 cp.2.legend p
      (match lookupA acc2 (weekKey p.isoYear p.isoWeek) with
       | none => ⟨⟨p.isoYear, p.isoWeek, p.fromDate, p.toDate⟩, generatedAt, []⟩
       | some w => w))

/-- The aggregation loops of `main`, abstracted over the fetch: the input is
the list of (canteen config, parsed page) pairs in processing order. -/
def aggregate (generatedAt : String) (fetched : List (CanteenConfig × ParsedMenu)) :
    List (String × OutputWeek) :=
  fetched.foldl
    (fun acc cp => (groupByWeek cp.2.days).foldl (aggStep generatedAt cp) acc) []

/-- The two files one aggregated week key contributes, in write order: the
canteen-indexed `key.json` and the day-indexed `by-day/key.json`, each
serialized with the trailing newline `writeJsonFile` appends. -/
def outputsFor (agg : List (String × OutputWeek)) (key : String) :
    List (String × String) :=
  match lookupA agg key with
  | none => []
  | some w =>
    [(key ++ ".json", serOutputWeek w ++ "\n"),
     ("by-day/" ++ key ++ ".json",
      serDayGroupedWeek (buildDayGroupedWeek w) ++ "\n")]

/-- The (path, content) pairs `main` hands to `writeJsonFile`, in write
order: the aggregated keys sorted, and per key the canteen-indexed file
`key.json` followed by the day-indexed file `by-day/key.json`; no write
happens when nothing was aggregated. Paths are relative to the output
directory. -/
def runOutputs (generatedAt : String) (fetched : List (CanteenConfig × ParsedMenu)) :
    List (String × String) :=
  if (aggregate generatedAt fetched).isEmpty then []
  else
    (List.insertionSort (fun a b : String => strLe a b = true)
        ((aggregate generatedAt fetched).map Prod.fst)).flatMap
      (outputsFor (aggregate generatedAt fetched))

/-- `writeJsonFile` against a store of file contents: write only when the
file is absent or its bytes differ; returns the new store and whether a
write happened. -/
def writeJsonFile (store : List (String × String)) (path content : String) :
    List (String × String) × Bool :=
  match lookupA store path with
  | some old => if old = content then (store, false) else (upsertA store path content, true)
  | none => (upsertA store path content, true)

/-- Perform a run's writes in order, counting the files actually written. -/
def runWrites (store : List (String × String)) (outs : List (String × String)) :
    List (String × String) × Nat :=
  outs.foldl
    (fun sn pc =>
      ((writeJsonFile sn.1 pc.1 pc.2).1,
       sn.2 + (if (writeJsonFile sn.1 pc.1 pc.2).2 then 1 else 0)))
    (store, 0)

/-- Fixture: the main canteen's page, one day in ISO week 2025-W41. -/
def c3cfgA : CanteenConfig := ⟨"main", "Mensa", "uA"⟩

/-- Fixture: a second canteen's page, another day of the same ISO week. -/
def c3cfgB : CanteenConfig := ⟨"q-west", "Q-West", "uB"⟩

/-- Fixture: parsed page of the first canteen. -/
def c3pmA : ParsedMenu := ⟨[⟨"2025-10-06", "Mo., 06.10.", []⟩], none⟩

/-- Fixture: parsed page of the second canteen. -/
def c3pmB : ParsedMenu := ⟨[⟨"2025-10-07", "Di., 07.10.", []⟩], none⟩

/-- Fixture: the two sources in configuration order. -/
def c3fetchAB : List (CanteenConfig × ParsedMenu) := [(c3cfgA, c3pmA), (c3cfgB, c3pmB)]

/-- Fixture: the same two sources in the opposite processing order. -/
def c3fetchBA : List (CanteenConfig × ParsedMenu) := [(c3cfgB, c3pmB), (c3cfgA, c3pmA)]

/-- C3: two complete runs over the same unchanged sources are not
byte-identical and the second run does write: the run timestamp
`generatedAt = new Date().toISOString()` is serialized into every payload,
so a rerun one hour later rewrites every file of the fixture week; and the
serialized canteen record follows processing order, so swapping the two
sources changes the bytes of the canteen-indexed document. -/
theorem pipeline_rerun_differs :
    (runWrites (runWrites [] (runOutputs "2025-10-06T08:00:00.000Z" c3fetchAB)).1
        (runOutputs "2025-10-06T09:00:00.000Z" c3fetchAB)).2 ≠ 0 ∧
    runOutputs "2025-10-06T08:00:00.000Z" c3fetchAB ≠
      runOutputs "2025-10-06T08:00:00.000Z" c3fetchBA := by
  set_option maxRecDepth 20000 in decide

theorem lookupA_upsertA_self {α : Type} :
    ∀ (s : List (String × α)) (k : String) (v : α),
    lookupA (upsertA s k v) k = some v := by
  intro s
  induction s with
  | nil => intro k v; simp [upsertA, lookupA]
  | cons hd tl ih =>
      obtain ⟨k', v'⟩ := hd
      intro k v
      by_cases h : k' = k
      · rw [show upsertA ((k', v') :: tl) k v = (k', v) :: tl from by
          simp [upsertA, h]]
        simp [lookupA, h]
      · rw [show upsertA ((k', v') :: tl) k v = (k', v') :: upsertA tl k v from by
          simp [upsertA, h]]
        simp only [lookupA, if_neg h]
        exact ih k v

theorem lookupA_upsertA_other {α : Type} :
    ∀ (s : List (String × α)) (k : String) (v : α) (q : String), q ≠ k →
    lookupA (upsertA s k v) q = lookupA s q := by
  intro s
  induction s with
  | nil =>
      intro k v q hq
      have hk : k ≠ q := fun he => hq he.symm
      simp [upsertA, lookupA, hk]
  | cons hd tl ih =>
      obtain ⟨k', v'⟩ := hd
      intro k v q hq
      by_cases h : k' = k
      · rw [show upsertA ((k', v') :: tl) k v = (k', v) :: tl from by
          simp [upsertA, h]]
        have hk'q : k' ≠ q := fun he => hq (he.symm.trans h)
        simp [lookupA, hk'q]
      · rw [show upsertA ((k', v') :: tl) k v = (k', v') :: upsertA tl k v from by
          simp [upsertA, h]]
        by_cases hkq : k' = q
        · simp [lookupA, hkq]
        · simp only [lookupA, if_neg hkq]
          exact ih k v q hq

theorem writeJsonFile_noop (s : List (String × String)) (p c : String)
    (h : lookupA s p = some c) : writeJsonFile s p c = (s, false) := by
  unfold writeJsonFile
  split
  · next old hl =>
      have hoc : old = c := by
        rw [h] at hl
        injection hl with hv
        exact hv.symm
      rw [if_pos hoc]
  · next hl =>
      rw [h] at hl
      cases hl

theorem writeJsonFile_lookup_self (s : List (String × String)) (p c : String) :
    lookupA (writeJsonFile s p c).1 p = some c := by
  unfold writeJsonFile
  split
  · next old hl =>
      by_cases he : old = c
      · rw [if_pos he]
        rw [show ((s, false) : List (String × String) × Bool).1 = s from rfl, hl, he]
      · rw [if_neg he]
        exact lookupA_upsertA_self s p c
  · next hl =>
      exact lookupA_upsertA_self s p c

theorem writeJsonFile_lookup_other (s : List (String × String)) (p c q : String)
    (hq : q ≠ p) : lookupA (writeJsonFile s p c).1 q = lookupA s q := by
  unfold writeJsonFile
  split
  · next old hl =>
      by_cases he : old = c
      · rw [if_pos he]
      · rw [if_neg he]
        exact lookupA_upsertA_other s p c q hq
  · next hl =>
      exact lookupA_upsertA_other s p c q hq

theorem runWrites_noop_aux :
    ∀ (outs : List (String × String)) (s : List (String × String)) (n : Nat),
    (∀ pc ∈ outs, lookupA s pc.1 = some pc.2) →
    outs.foldl
      (fun sn pc =>
        ((writeJsonFile sn.1 pc.1 pc.2).1,
         sn.2 + (if (writeJsonFile sn.1 pc.1 pc.2).2 then 1 else 0)))
      (s, n) = (s, n) := by
  intro outs
  induction outs with
  | nil => intro s n _; rfl
  | cons pc tl ih =>
      intro s n h
      have hpc := h pc (List.mem_cons_self pc tl)
      have hw : writeJsonFile s pc.1 pc.2 = (s, false) :=
        writeJsonFile_noop s pc.1 pc.2 hpc
      simp only [List.foldl_cons, hw, Bool.false_eq_true, if_false, Nat.add_zero]
      exact ih s n (fun qc hqc => h qc (List.mem_cons_of_mem pc hqc))

theorem runWrites_keep_aux :
    ∀ (outs : List (String × String)) (s : List (String × String)) (n : Nat) (p : String),
    p ∉ outs.map Prod.fst →
    lookupA
      (outs.foldl
        (fun sn pc =>
          ((writeJsonFile sn.1 pc.1 pc.2).1,
           sn.2 + (if (writeJsonFile sn.1 pc.1 pc.2).2 then 1 else 0)))
        (s, n)).1 p = lookupA s p := by
  intro outs
  induction outs with
  | nil => intro s n p _; rfl
  | cons pc tl ih =>
      intro s n p hp
      rw [List.map_cons] at hp
      have hne : p ≠ pc.1 := fun he => hp (he ▸ List.mem_cons_self pc.1 (tl.map Prod.fst))
      have htl : p ∉ tl.map Prod.fst := fun hm => hp (List.mem_cons_of_mem _ hm)
      simp only [List.foldl_cons]
      rw [ih _ _ p htl]
      exact writeJsonFile_lookup_other s pc.1 pc.2 p hne

theorem runWrites_first_aux :
    ∀ (outs : List (String × String)) (s : List (String × String)) (n : Nat),
    (outs.map Prod.fst).Pairwise (· ≠ ·) →
    ∀ pc ∈ outs,
    lookupA
      (outs.foldl
        (fun sn pc =>
          ((writeJsonFile sn.1 pc.1 pc.2).1,
           sn.2 + (if (writeJsonFile sn.1 pc.1 pc.2).2 then 1 else 0)))
        (s, n)).1 pc.1 = some pc.2 := by
  intro outs
  induction outs with
  | nil => intro s n _ pc hpc; cases hpc
  | cons hd tl ih =>
      intro s n hpw pc hpc
      rw [List.map_cons, List.pairwise_cons] at hpw
      rcases List.mem_cons.mp hpc with he | hm
      · subst he
        have hnot : pc.1 ∉ tl.map Prod.fst := fun hm => hpw.1 pc.1 hm rfl
        simp only [List.foldl_cons]
        rw [runWrites_keep_aux tl _ _ pc.1 hnot]
        exact writeJsonFile_lookup_self s pc.1 pc.2
      · simp only [List.foldl_cons]
        exact ih _ _ hpw.2 pc hm

/-- Key invariant of the aggregation map: pairwise-distinct keys, each of
week-key shape. -/
def AggKeyInv (m : List (String × OutputWeek)) : Prop :=
  (m.map Prod.fst).Pairwise (· ≠ ·) ∧
  ∀ k ∈ m.map Prod.fst, ∃ y w, k = weekKey y w

theorem aggStep_inv (generatedAt : String) (cp : CanteenConfig × ParsedMenu)
    (acc2 : List (String × OutputWeek)) (p : WeekPartition)
    (h : AggKeyInv acc2) : AggKeyInv (aggStep generatedAt cp acc2 p) := by
  unfold aggStep
  refine ⟨upsertA_keys_pairwise _ _ _ h.1, ?_⟩
  intro k hk
  rw [mem_upsertA_keys] at hk
  rcases hk with he | hm
  · exact ⟨p.isoYear, p.isoWeek, he⟩
  · exact h.2 k hm

theorem foldl_aggStep_inv (generatedAt : String) (cp : CanteenConfig × ParsedMenu) :
    ∀ (ps : List WeekPartition) (acc2 : List (String × OutputWeek)),
    AggKeyInv acc2 → AggKeyInv (ps.foldl (aggStep generatedAt cp) acc2) := by
  intro ps
  induction ps with
  | nil => intro acc2 h; exact h
  | cons p tl ih =>
      intro acc2 h
      rw [List.foldl_cons]
      exact ih _ (aggStep_inv generatedAt cp acc2 p h)

theorem aggregate_inv (generatedAt : String)
    (fetched : List (CanteenConfig × ParsedMenu)) :
    AggKeyInv (aggregate generatedAt fetched) := by
  unfold aggregate
  have hgen : ∀ (fs : List (CanteenConfig × ParsedMenu)) (acc : List (String × OutputWeek)),
      AggKeyInv acc →
      AggKeyInv (fs.foldl
        (fun acc cp => (groupByWeek cp.2.days).foldl (aggStep generatedAt cp) acc) acc) := by
    intro fs
    induction fs with
    | nil => intro acc h; exact h
    | cons cp tl ih =>
        intro acc h
        rw [List.foldl_cons]
        exact ih _ (foldl_aggStep_inv generatedAt cp _ acc h)
  exact hgen fetched [] ⟨List.Pairwise.nil, by simp⟩

theorem natToCharsAux_digit :
    ∀ (fuel n : Nat), ∀ c ∈ natToCharsAux fuel n, c.isDigit = true := by
  intro fuel
  induction fuel with
  | zero => intro n c hc; cases hc
  | succ f ih =>
      intro n c hc
      have hdig : ∀ m : Nat, m < 10 → (Nat.digitChar m).isDigit = true := by decide
      unfold natToCharsAux at hc
      by_cases h : n < 10
      · rw [if_pos h] at hc
        rw [List.mem_singleton] at hc
        subst hc
        exact hdig n h
      · rw [if_neg h] at hc
        rcases List.mem_append.mp hc with h1 | h2
        · exact ih (n / 10) c h1
        · rw [List.mem_singleton] at h2
          subst h2
          exact hdig _ (Nat.mod_lt n (by norm_num))

theorem natToCharsAux_ne_nil (f n : Nat) : natToCharsAux (f + 1) n ≠ [] := by
  unfold natToCharsAux
  by_cases h : n < 10
  · rw [if_pos h]
    exact List.cons_ne_nil _ _
  · rw [if_neg h]
    intro he
    exact List.cons_ne_nil _ _ (List.append_eq_nil.mp he).2

theorem weekKey_head_ne (y w : Int) :
    ∃ c t, (weekKey y w).data = c :: t ∧ c ≠ 'b' := by
  unfold weekKey intToString
  by_cases hy : y < 0
  · rw [if_pos hy]
    refine ⟨'-', (natToString (-y).toNat).data ++ ("-W".data ++
      (padZero 2 (if w < 0 then "-" ++ natToString (-w).toNat else natToString w.toNat)).data),
      ?_, by decide⟩
    have hm : ("-" : String).data = ['-'] := rfl
    simp [String.data_append, hm]
  · rw [if_neg hy]
    obtain ⟨c, t, hct⟩ : ∃ c t, (natToString y.toNat).data = c :: t := by
      unfold natToString
      rcases hne : natToCharsAux (y.toNat + 1) y.toNat with _ | ⟨c, t⟩
      · exact absurd hne (natToCharsAux_ne_nil _ _)
      · exact ⟨c, t, rfl⟩
    have hcd : c.isDigit = true := by
      refine natToCharsAux_digit (y.toNat + 1) y.toNat c ?_
      have : (natToString y.toNat).data = natToCharsAux (y.toNat + 1) y.toNat := rfl
      rw [this] at hct
      rw [hct]
      exact List.mem_cons_self _ _
    refine ⟨c, t ++ ("-W".data ++
      (padZero 2 (if w < 0 then "-" ++ natToString (-w).toNat else natToString w.toNat)).data),
      ?_, ?_⟩
    · simp [String.data_append, hct]
    · intro he
      subst he
      exact absurd hcd (by decide)

theorem append_json_inj (a b : String) (h : a ++ ".json" = b ++ ".json") : a = b := by
  have hd := congrArg String.data h
  simp only [String.data_append] at hd
  exact congrArg String.mk (List.append_inj' hd rfl).1

theorem append_byday_ne (a b : String) (ha : ∃ c t, a.data = c :: t ∧ c ≠ 'b') :
    a ++ ".json" ≠ "by-day/" ++ b ++ ".json" := by
  obtain ⟨c, t, hct, hcb⟩ := ha
  intro h
  have hd := congrArg String.data h
  have hby : ("by-day/" : String).data = ['b', 'y', '-', 'd', 'a', 'y', '/'] := rfl
  simp only [String.data_append, hby, hct, List.cons_append, List.append_assoc] at hd
  injection hd with h1 _
  exact hcb h1

theorem byday_append_inj (a b : String)
    (h : "by-day/" ++ a ++ ".json" = "by-day/" ++ b ++ ".json") : a = b := by
  have h2 := append_json_inj _ _ h
  have hd := congrArg String.data h2
  simp only [String.data_append] at hd
  exact congrArg String.mk (List.append_inj hd rfl).2

theorem paths_pairwise :
    ∀ (ks : List String), ks.Pairwise (· ≠ ·) →
    (∀ k ∈ ks, ∃ c t, k.data = c :: t ∧ c ≠ 'b') →
    (ks.flatMap (fun k => [k ++ ".json", "by-day/" ++ k ++ ".json"])).Pairwise (· ≠ ·) := by
  intro ks
  induction ks with
  | nil => intro _ _; simp
  | cons k tl ih =>
      intro hpw hsh
      rw [List.pairwise_cons] at hpw
      have hk := hsh k (List.mem_cons_self k tl)
      have hshtl : ∀ x ∈ tl, ∃ c t, x.data = c :: t ∧ c ≠ 'b' :=
        fun x hx => hsh x (List.mem_cons_of_mem _ hx)
      rw [List.flatMap_cons, List.pairwise_append]
      refine ⟨?_, ih hpw.2 hshtl, ?_⟩
      · refine List.pairwise_cons.mpr ⟨?_, List.pairwise_singleton _ _⟩
        intro b hb
        rw [List.mem_singleton] at hb
        subst hb
        exact append_byday_ne k k hk
      · intro a ha b hb
        rw [List.mem_flatMap] at hb
        obtain ⟨k', hk', hbk⟩ := hb
        have hkk' : k ≠ k' := hpw.1 k' hk'
        have hk'sh := hshtl k' hk'
        rcases List.mem_cons.mp ha with rfl | ha2
        · rcases List.mem_cons.mp hbk with rfl | hb2
          · exact fun h => hkk' (append_json_inj _ _ h)
          · rw [List.mem_singleton] at hb2
            subst hb2
            exact append_byday_ne k k' hk
        · rw [List.mem_singleton] at ha2
          subst ha2
          rcases List.mem_cons.mp hbk with rfl | hb2
          · exact Ne.symm (append_byday_ne k' k hk'sh)
          · rw [List.mem_singleton] at hb2
            subst hb2
            exact fun h => hkk' (byday_append_inj _ _ h)

theorem outputsFor_eq (agg : List (String × OutputWeek)) (k : String) (w : OutputWeek)
    (hw : lookupA agg k = some w) :
    outputsFor agg k =
      [(k ++ ".json", serOutputWeek w ++ "\n"),
       ("by-day/" ++ k ++ ".json",
        serDayGroupedWeek (buildDayGroupedWeek w) ++ "\n")] := by
  unfold outputsFor
  split
  · next hl =>
      rw [hw] at hl
      cases hl
  · next w' hl =>
      rw [hw] at hl
      injection hl with hv
      rw [hv]

theorem flat_paths_map (agg : List (String × OutputWeek)) :
    ∀ (ks : List String),
    (∀ k ∈ ks, ∃ w, lookupA agg k = some w) →
    ((ks.flatMap (outputsFor agg)).map Prod.fst) =
      ks.flatMap (fun k => [k ++ ".json", "by-day/" ++ k ++ ".json"]) := by
  intro ks
  induction ks with
  | nil => intro _; rfl
  | cons k tl ih =>
      intro h
      obtain ⟨w, hw⟩ := h k (List.mem_cons_self k tl)
      rw [List.flatMap_cons, List.flatMap_cons, List.map_append]
      rw [ih (fun q hq => h q (List.mem_cons_of_mem _ hq))]
      rw [outputsFor_eq agg k w hw]
      rfl

theorem runOutputs_paths_pairwise (generatedAt : String)
    (fetched : List (CanteenConfig × ParsedMenu)) :
    ((runOutputs generatedAt fetched).map Prod.fst).Pairwise (· ≠ ·) := by
  unfold runOutputs
  by_cases hemp : (aggregate generatedAt fetched).isEmpty
  · rw [if_pos hemp]
    simp
  · rw [if_neg hemp]
    obtain ⟨hpw, hsh⟩ := aggregate_inv generatedAt fetched
    have hperm := List.perm_insertionSort (fun a b : String => strLe a b = true)
      ((aggregate generatedAt fetched).map Prod.fst)
    have hkpw : (List.insertionSort (fun a b : String => strLe a b = true)
        ((aggregate generatedAt fetched).map Prod.fst)).Pairwise (· ≠ ·) :=
      (hperm.pairwise_iff (fun hne => Ne.symm hne)).mpr hpw
    have hklook : ∀ k ∈ List.insertionSort (fun a b : String => strLe a b = true)
        ((aggregate generatedAt fetched).map Prod.fst),
        ∃ w, lookupA (aggregate generatedAt fetched) k = some w := by
      intro k hk
      have hmem : k ∈ (aggregate generatedAt fetched).map Prod.fst := hperm.mem_iff.mp hk
      rcases hl : lookupA (aggregate generatedAt fetched) k with _ | w
      · rw [lookupA_eq_none] at hl
        exact absurd hmem hl
      · exact ⟨w, rfl⟩
    have hksh : ∀ k ∈ List.insertionSort (fun a b : String => strLe a b = true)
        ((aggregate generatedAt fetched).map Prod.fst),
        ∃ c t, k.data = c :: t ∧ c ≠ 'b' := by
      intro k hk
      obtain ⟨y, w, rfl⟩ := hsh k (hperm.mem_iff.mp hk)
      exact weekKey_head_ne y w
    rw [flat_paths_map (aggregate generatedAt fetched) _ hklook]
    exact paths_pairwise _ hkpw hksh

/-- When the run instant is held fixed (the same `generatedAt` string) and
the sources are processed in the same order with the same parsed pages, the
pipeline is deterministic and the write-if-changed guard makes the second
run perform zero writes, from any starting store. -/
theorem pipeline_second_run_no_writes (store0 : List (String × String))
    (generatedAt : String) (fetched : List (CanteenConfig × ParsedMenu)) :
    (runWrites (runWrites store0 (runOutputs generatedAt fetched)).1
      (runOutputs generatedAt fetched)).2 = 0 := by
  have hpw := runOutputs_paths_pairwise generatedAt fetched
  have h1 : ∀ pc ∈ runOutputs generatedAt fetched,
      lookupA (runWrites store0 (runOutputs generatedAt fetched)).1 pc.1 = some pc.2 :=
    fun pc hpc => runWrites_first_aux (runOutputs generatedAt fetched) store0 0 hpw pc hpc
  have h2 := runWrites_noop_aux (runOutputs generatedAt fetched)
    ((runWrites store0 (runOutputs generatedAt fetched)).1) 0 h1
  exact congrArg Prod.snd h2
